import Mathlib

/-! NeoGaugeDisplay: a shallow embedding of the gauge renderer.

The C++ class `NeoGaugeDisplay` (files `src/NeoGaugeDisplay.h` and
`src/NeoGaugeDisplay.cpp`) is embedded as pure functions over an explicit
state record.

Conventions of the embedding.

* Machine integers are `Nat` or `Int`; a narrowing conversion is written out
  (`toUInt8`, `toInt16`, `toUInt16`) at the place where the C++ code narrows.
  Arithmetic that C++ performs in `int` or `long` is done in `Int`: for
  operands of the declared field types (`int16_t` value, `uint8_t` size,
  `uint16_t` range), at most 16 gauges and the steps that `show` passes to
  `getPixelColor`, no `int` result leaves 16 bits (the `int` of an AVR
  target) and no `long` result leaves 32 bits.
* The union `Color` is a 32-bit value whose bytes are, from the least
  significant one, `Blue`, `Green`, `Red`, `Alpha` (every supported target is
  little-endian).
* An operation whose C++ behaviour is undefined (indexing `_gauges` outside
  its 16 slots, dividing by zero) yields `none`: the code defines no result
  there.  `none` is therefore never an error value handed to the caller.
* The external strand driver is represented by the list of calls made on it.
-/

namespace NeoGauge

/-! ## Machine integers -/

/-- Conversion to `uint8_t`. -/
def toUInt8 (x : Int) : Nat := (x % 256).toNat

/-- Conversion to `uint16_t`. -/
def toUInt16 (x : Int) : Nat := (x % 65536).toNat

/-- Conversion to `int16_t` (two's complement wrap, as gcc does). -/
def toInt16 (x : Int) : Int := (x + 32768) % 65536 - 32768

/-! ## Data model -/

/-- Record `struct Gauge` of `NeoGaugeDisplay.h`. -/
structure Gauge where
  /-- Field `int16_t value`. -/
  value : Int
  /-- Field `uint8_t size`. -/
  size : Nat
  /-- Field `uint32_t startColor`. -/
  startColor : Nat
  /-- Field `uint32_t endColor`. -/
  endColor : Nat
  /-- Field `bool reverse`. -/
  reverse : Bool
  deriving DecidableEq, Repr, Inhabited

/-- Member `rgb.Red` of the union `Color`: byte 2 of the 32-bit value. -/
def Red (c : Nat) : Nat := c / 65536 % 256

/-- Member `rgb.Green` of the union `Color`: byte 1 of the 32-bit value. -/
def Green (c : Nat) : Nat := c / 256 % 256

/-- Member `rgb.Blue` of the union `Color`: byte 0 of the 32-bit value. -/
def Blue (c : Nat) : Nat := c % 256

/-- Member `rgb.Alpha` of the union `Color`: byte 3 of the 32-bit value. -/
def Alpha (c : Nat) : Nat := c / 16777216 % 256

/-- Member `value` of a `Color` whose four bytes are given. -/
def colorValue (alpha red green blue : Nat) : Nat :=
  alpha % 256 * 16777216 + red % 256 * 65536 + green % 256 * 256 + blue % 256

/-- Table `_RainbowColor` of `NeoGaugeDisplay.h`. -/
def _RainbowColor : List Nat :=
  [0xFF0000, 0xFF4000, 0xFFCC00, 0x00CC00, 0x004080, 0xAA00FF]

/-- Read of entry `k` of a table in program memory (`pgm_read_dword_near (table + k)`). -/
def pgm_read_dword_near (table : List Nat) (k : Nat) : Nat := table.getD k 0

/-- Private and public members of `class NeoGaugeDisplay`, the driver handle apart. -/
structure NeoGaugeDisplay where
  /-- Member `uint8_t _pin`. -/
  _pin : Nat
  /-- Member `uint8_t _numberOfGauges`. -/
  _numberOfGauges : Nat
  /-- Member `uint8_t _space`. -/
  _space : Nat
  /-- Member `uint8_t _brightness`. -/
  _brightness : Nat
  /-- Member `uint16_t _range`. -/
  _range : Nat
  /-- Member `Gauge _gauges[16]`: the 16 slots of the array. -/
  _gauges : List Gauge
  /-- Member `Color _background`, as its 32-bit value. -/
  _background : Nat
  deriving DecidableEq, Repr

/-- One call on the strand driver `Adafruit_NeoPixel`. -/
inductive DriverCall where
  /-- Call `setPixelColor(n, c)`. -/
  | setPixelColor (n : Nat) (c : Nat)
  /-- Call `show()`. -/
  | show
  deriving DecidableEq, Repr

/-- Static helper `Adafruit_NeoPixel::Color(r, g, b)` of the driver library:
the packed value `r << 16 | g << 8 | b`. -/
def driverColor (r g b : Nat) : Nat := r * 65536 + g * 256 + b

/-- Arduino core function `long map(long x, long in_min, long in_max, long out_min,
long out_max)`, as the Arduino reference defines it:
`(x - in_min) * (out_max - out_min) / (in_max - in_min) + out_min`, with C
division (truncation toward zero); undefined when `in_max = in_min`. -/
def map (x in_min in_max out_min out_max : Int) : Option Int :=
  if in_max - in_min = 0 then none
  else some (Int.tdiv ((x - in_min) * (out_max - out_min)) (in_max - in_min) + out_min)

namespace NeoGaugeDisplay

/-! ## Operations -/

/-- Private function `init(pin, space)`, run by both constructors on the object
under construction. -/
def init (self : NeoGaugeDisplay) (pin space : Nat) : NeoGaugeDisplay :=
  { self with
    _pin := pin
    _space := space
    _numberOfGauges := 0
    _background := 0x000000
    _brightness := 32
    _range := 0x3ff }

/-- Method `addGauge(uint8_t size)`: the result is the returned index and the
new state. The store `_gauges[_numberOfGauges] = ...` is defined only inside
the 16 slots. -/
def addGauge (self : NeoGaugeDisplay) (size : Nat) : Option (Nat × NeoGaugeDisplay) :=
  let gaugeColor := pgm_read_dword_near _RainbowColor (self._numberOfGauges % 6)
  if self._numberOfGauges < 16 then
    some (self._numberOfGauges,
      { self with
        _gauges := self._gauges.set self._numberOfGauges ⟨0, size, gaugeColor, gaugeColor, false⟩
        _numberOfGauges := (self._numberOfGauges + 1) % 256 })
  else none

/-- Method `addGauge(uint8_t size, uint32_t startRGBcode, uint32_t endRGBcode,
bool reverse)`. -/
def addGaugeRGB (self : NeoGaugeDisplay) (size startRGBcode endRGBcode : Nat)
    (reverse : Bool) : Option (Nat × NeoGaugeDisplay) :=
  if self._numberOfGauges < 16 then
    some (self._numberOfGauges,
      { self with
        _gauges := self._gauges.set self._numberOfGauges ⟨0, size, startRGBcode, endRGBcode, reverse⟩
        _numberOfGauges := (self._numberOfGauges + 1) % 256 })
  else none

/-- Method `setGaugeValue(uint8_t gid, int value)`. -/
def setGaugeValue (self : NeoGaugeDisplay) (gid : Nat) (value : Int) :
    Option NeoGaugeDisplay :=
  match self._gauges[gid]? with
  | none => none
  | some gauge =>
    if gid < 16 then
      some { self with _gauges := self._gauges.set gid { gauge with value := toInt16 value } }
    else none

/-- Method `setBackgroundColor(uint32_t color)`. -/
def setBackgroundColor (self : NeoGaugeDisplay) (color : Nat) : NeoGaugeDisplay :=
  { self with _background := color }

/-- Method `setRange(uint16_t range)`. -/
def setRange (self : NeoGaugeDisplay) (range : Nat) : NeoGaugeDisplay :=
  { self with _range := range }

/-- Private function `getPixelColor(Gauge gauge, uint8_t step)`. The local
`pixelColor` is not initialised and only its three colour bytes are assigned,
so its `Alpha` byte is whatever the stack held: the parameter `alpha`. -/
def getPixelColor (alpha : Nat) (gauge : Gauge) (step : Nat) : Option Nat :=
  let startColor := if gauge.reverse then gauge.endColor else gauge.startColor
  let endColor := if gauge.reverse then gauge.startColor else gauge.endColor
  if step = 0 then some startColor
  else if (step : Int) = (gauge.size : Int) - 1 then some endColor
  else if startColor = endColor then some startColor
  else if gauge.size = 0 then none
  else
    let stepRed := toInt16 (Int.tdiv ((Red endColor : Int) - Red startColor) gauge.size)
    let stepGreen := toInt16 (Int.tdiv ((Green endColor : Int) - Green startColor) gauge.size)
    let stepBlue := toInt16 (Int.tdiv ((Blue endColor : Int) - Blue startColor) gauge.size)
    if step < gauge.size / 2 then
      some (colorValue alpha
        (toUInt8 (Red startColor + step * stepRed))
        (toUInt8 (Green startColor + step * stepGreen))
        (toUInt8 (Blue startColor + step * stepBlue)))
    else
      let step := toUInt8 ((gauge.size : Int) - 1 - step)
      some (colorValue alpha
        (toUInt8 (Red endColor - step * stepRed))
        (toUInt8 (Green endColor - step * stepGreen))
        (toUInt8 (Blue endColor - step * stepBlue)))

/-- Summation loop of `totalNumberOfPixels`: `k` iterations are left, `i` is
the loop index and `numberOfPixels` the `uint16_t` accumulator. -/
def totalLoop (gauges : List Gauge) : Nat → Nat → Nat → Option Nat
  | 0, _, numberOfPixels => some numberOfPixels
  | k + 1, i, numberOfPixels =>
    match gauges[i]? with
    | none => none
    | some gauge => totalLoop gauges k (i + 1) (toUInt16 (numberOfPixels + gauge.size))

/-- Private function `totalNumberOfPixels()`. -/
def totalNumberOfPixels (self : NeoGaugeDisplay) : Option Nat :=
  match totalLoop self._gauges self._numberOfGauges 0 0 with
  | none => none
  | some numberOfPixels =>
    some (toUInt16 (numberOfPixels + ((self._numberOfGauges : Int) - 1) * self._space))

/-- Outcome of one of the two conditional expressions in the pixel loop of
`show`: the colour `c` computed by `getPixelColor`, or `_background`. -/
inductive Pick where
  /-- The pixel takes the computed colour `c`. -/
  | computed
  /-- The pixel takes `_background`. -/
  | background
  deriving DecidableEq, Repr

/-- Choice made in the pixel loop of `show`:
`gauge.reverse ? (reading <= size - pixel - 1 ? _background : c)
               : (reading >= pixel + 1 ? c : _background)`. -/
def pickPixel (gauge : Gauge) (reading : Int) (pixel : Nat) : Pick :=
  if gauge.reverse then
    (if reading ≤ (gauge.size : Int) - pixel - 1 then Pick.background else Pick.computed)
  else
    (if reading ≥ (pixel : Int) + 1 then Pick.computed else Pick.background)

/-- Value assigned to `pixelColor` in the pixel loop of `show`. -/
def pixelColor (gauge : Gauge) (reading : Int) (pixel : Nat) (c background : Nat) : Nat :=
  match pickPixel gauge reading pixel with
  | Pick.computed => c
  | Pick.background => background

/-- Driver call made for one gauge pixel:
`setPixelColor(pixelCounter, Color(pixelColor.rgb.Red, pixelColor.rgb.Green, pixelColor.rgb.Blue))`. -/
def pixelCall (pixelCounter : Nat) (pixelColor : Nat) : DriverCall :=
  DriverCall.setPixelColor pixelCounter
    (driverColor (Red pixelColor) (Green pixelColor) (Blue pixelColor))

/-- Statement `int16_t reading = map(gauge.value, 0, _range, 0, gauge.size)` of `show`. -/
def gaugeReading (range : Nat) (gauge : Gauge) : Option Int :=
  match map gauge.value 0 range 0 gauge.size with
  | none => none
  | some r => some (toInt16 r)

/-- Pixel loop of `show` (`for (int pixel = 0; pixel < gauge.size; pixel++)`):
`k` iterations are left, `pixel` is the loop index; the state is `pixelCounter`
and the driver calls made so far. `junk pixel` is the indeterminate `Alpha`
byte of the call `getPixelColor(gauge, pixel)`, whose second parameter is a
`uint8_t`. -/
def showPixels (junk : Nat → Nat) (background : Nat) (gauge : Gauge) (reading : Int) :
    Nat → Nat → Nat → List DriverCall → Option (Nat × List DriverCall)
  | 0, _, pixelCounter, calls => some (pixelCounter, calls)
  | k + 1, pixel, pixelCounter, calls =>
    match getPixelColor (junk pixel) gauge (pixel % 256) with
    | none => none
    | some c =>
      showPixels junk background gauge reading k (pixel + 1) (pixelCounter + 1)
        (calls ++ [pixelCall pixelCounter (pixelColor gauge reading pixel c background)])

/-- Spacer loop of `show` (`for (int s = 0; s < _space; s++)`), with `k`
iterations left. -/
def showSpace : Nat → Nat → List DriverCall → Nat × List DriverCall
  | 0, pixelCounter, calls => (pixelCounter, calls)
  | k + 1, pixelCounter, calls =>
    showSpace k (pixelCounter + 1)
      (calls ++ [DriverCall.setPixelColor pixelCounter (driverColor 0 0 0)])

/-- Gauge loop of `show` (`for (int i = 0; i < _numberOfGauges; i++)`), with
`k` iterations left and loop index `i`. -/
def showGauges (self : NeoGaugeDisplay) (junk : Nat → Nat → Nat) :
    Nat → Nat → Nat → List DriverCall → Option (Nat × List DriverCall)
  | 0, _, pixelCounter, calls => some (pixelCounter, calls)
  | k + 1, i, pixelCounter, calls =>
    match self._gauges[i]? with
    | none => none
    | some gauge =>
      match gaugeReading self._range gauge with
      | none => none
      | some reading =>
        match showPixels (junk i) self._background gauge reading gauge.size 0
            pixelCounter calls with
        | none => none
        | some (pixelCounter1, calls1) =>
          if (i : Int) < (self._numberOfGauges : Int) - 1 then
            showGauges self junk k (i + 1) (showSpace self._space pixelCounter1 calls1).1
              (showSpace self._space pixelCounter1 calls1).2
          else
            showGauges self junk k (i + 1) pixelCounter1 calls1

/-- Method `show()`: the calls it makes on the strand driver, in order.
`junk i pixel` is the indeterminate `Alpha` byte of the colour computed for
pixel `pixel` of gauge `i`. -/
def showDisplay (self : NeoGaugeDisplay) (junk : Nat → Nat → Nat) :
    Option (List DriverCall) :=
  match showGauges self junk self._numberOfGauges 0 0 [] with
  | none => none
  | some (_, calls) => some (calls ++ [DriverCall.show])

end NeoGaugeDisplay

/-! ## Well-formed states -/

/-- Every field of the gauge lies in the range of its C type. -/
def Gauge.WF (g : Gauge) : Prop :=
  -32768 ≤ g.value ∧ g.value ≤ 32767 ∧ g.size < 256 ∧
    g.startColor < 4294967296 ∧ g.endColor < 4294967296

instance (g : Gauge) : Decidable g.WF := by
  unfold Gauge.WF; infer_instance

/-- Every member lies in the range of its C type, the array has its 16 slots
and the gauge count does not exceed them. -/
def NeoGaugeDisplay.WF (d : NeoGaugeDisplay) : Prop :=
  d._pin < 256 ∧ d._numberOfGauges ≤ 16 ∧ d._space < 256 ∧ d._brightness < 256 ∧
    d._range < 65536 ∧ d._gauges.length = 16 ∧ d._background < 4294967296 ∧
    ∀ g ∈ d._gauges, g.WF

instance (d : NeoGaugeDisplay) : Decidable d.WF := by
  unfold NeoGaugeDisplay.WF; infer_instance

/-! ## Derived quantities used in the statements -/

/-- Effective start colour of a gauge: `endColor` when reversed. -/
def effectiveStart (g : Gauge) : Nat := if g.reverse then g.endColor else g.startColor

/-- Effective end colour of a gauge: `startColor` when reversed. -/
def effectiveEnd (g : Gauge) : Nat := if g.reverse then g.startColor else g.endColor

/-- Sum of the sizes of the first `n` gauges of the registry. -/
def sizeSum (d : NeoGaugeDisplay) (n : Nat) : Nat := ((d._gauges.take n).map Gauge.size).sum

/-- Channel value that the specification gives an interior pixel: with
`delta = (end - start) / size` truncated toward zero, `start + step * delta`
in the first half (`step < size / 2`) and `end - (size - 1 - step) * delta` in
the second half. -/
def channelRamp (startChannel endChannel size step : Nat) : Int :=
  if step < size / 2 then
    (startChannel : Int) + step * Int.tdiv ((endChannel : Int) - startChannel) size
  else
    (endChannel : Int) - ((size : Int) - 1 - step) * Int.tdiv ((endChannel : Int) - startChannel) size

/-- Closed form of the colour of pixel `step`: the effective start at step 0,
the effective end at step `size - 1`, the common colour of a solid gauge, and
otherwise the colour whose three channels follow `channelRamp`, with the
indeterminate `Alpha` byte `alpha`. -/
def closedColor (alpha : Nat) (g : Gauge) (step : Nat) : Nat :=
  if step = 0 then effectiveStart g
  else if step + 1 = g.size then effectiveEnd g
  else if effectiveStart g = effectiveEnd g then effectiveStart g
  else
    colorValue alpha
      (channelRamp (Red (effectiveStart g)) (Red (effectiveEnd g)) g.size step).toNat
      (channelRamp (Green (effectiveStart g)) (Green (effectiveEnd g)) g.size step).toNat
      (channelRamp (Blue (effectiveStart g)) (Blue (effectiveEnd g)) g.size step).toNat

/-- A gauge with every field zero. -/
def zeroGauge : Gauge := ⟨0, 0, 0, 0, false⟩

/-- Colour computed by `getPixelColor` (0 where the call is undefined). -/
def baseColor (alpha : Nat) (g : Gauge) (step : Nat) : Nat :=
  (NeoGaugeDisplay.getPixelColor alpha g step).getD 0

/-- Colour word handed to the driver for a pixel whose `Color` has value `x`:
`Color(x.rgb.Red, x.rgb.Green, x.rgb.Blue)`, the low 24 bits of `x`. -/
def shownColor (x : Nat) : Nat := driverColor (Red x) (Green x) (Blue x)

/-- Gauge stored in slot `i` of the registry. -/
def gaugeAt (d : NeoGaugeDisplay) (i : Nat) : Gauge := d._gauges.getD i zeroGauge

/-- Reading that `show` computes for the gauge in slot `i` (0 where undefined). -/
def readingAt (d : NeoGaugeDisplay) (i : Nat) : Int :=
  (NeoGaugeDisplay.gaugeReading d._range (gaugeAt d i)).getD 0

/-- Strand index of the first pixel of gauge `i`: the sizes of the gauges
before it plus `i` spacers. -/
def gaugeOffset (d : NeoGaugeDisplay) (i : Nat) : Nat := sizeSum d i + i * d._space

/-- The `g.size` driver calls that render one gauge from strand index `base`. -/
def gaugeCalls (junk : Nat → Nat) (background : Nat) (g : Gauge) (reading : Int)
    (base : Nat) : List DriverCall :=
  (List.range g.size).map fun p =>
    DriverCall.setPixelColor (base + p)
      (shownColor (NeoGaugeDisplay.pixelColor g reading p (baseColor (junk p) g p) background))

/-- The driver calls for `space` black pixels from strand index `base`. -/
def spaceCalls (space base : Nat) : List DriverCall :=
  (List.range space).map fun s => DriverCall.setPixelColor (base + s) 0

/-- The driver calls for gauge `i`: its pixels, then, unless it is the last
gauge, the spacer that follows it. -/
def segmentCalls (d : NeoGaugeDisplay) (junk : Nat → Nat → Nat) (i : Nat) : List DriverCall :=
  gaugeCalls (junk i) d._background (gaugeAt d i) (readingAt d i) (gaugeOffset d i)
    ++ (if i + 1 < d._numberOfGauges then
          spaceCalls d._space (gaugeOffset d i + (gaugeAt d i).size)
        else [])

/-- Number of pixels of a gauge for which the pixel loop of `show` picks the
computed colour. -/
def litCount (g : Gauge) (reading : Int) : Nat :=
  (List.range g.size).countP fun p => NeoGaugeDisplay.pickPixel g reading p = NeoGaugeDisplay.Pick.computed

/-- The calls of the list are pixel writes at the consecutive strand indices
`base, base + 1, ...`, in that order. -/
def IndexedFrom (base : Nat) (l : List DriverCall) : Prop :=
  ∀ j, j < l.length → ∃ c, l[j]? = some (DriverCall.setPixelColor (base + j) c)

/-- Path condition of the three divisions by `gauge.size` in `getPixelColor`:
none of the three early returns (`step == 0`, `step == gauge.size - 1`, equal
effective colours) is taken. -/
def divisionReached (g : Gauge) (step : Nat) : Prop :=
  step ≠ 0 ∧ (step : Int) ≠ (g.size : Int) - 1 ∧ effectiveStart g ≠ effectiveEnd g

instance (g : Gauge) (step : Nat) : Decidable (divisionReached g step) := by
  unfold divisionReached; infer_instance

/-- Second arguments of the calls `getPixelColor(gauge, pixel)` that the pixel
loop of `show` makes for one gauge (`pixel = 0, ..., gauge.size - 1`, passed
as `uint8_t`). -/
def getPixelColorSteps (g : Gauge) : List Nat :=
  (List.range g.size).map fun pixel => pixel % 256

/-! ## Concrete states -/

/-- An object in zeroed storage, before its constructor has run. -/
def zeroed : NeoGaugeDisplay := ⟨0, 0, 0, 0, 0, List.replicate 16 zeroGauge, 0⟩

/-- The display on pin 6 that holds exactly the gauges `gs` (at most 16), with
the given spacing, range and background; unused slots are zero. -/
def displayOf (space range background : Nat) (gs : List Gauge) : NeoGaugeDisplay :=
  ⟨6, gs.length, space, 32, range, gs ++ List.replicate (16 - gs.length) zeroGauge, background⟩

/-- Three gauges of sizes 5, 3 and 8 separated by 2 blank pixels. -/
def threeGauges : NeoGaugeDisplay :=
  displayOf 2 1023 0 [⟨0, 5, 0xFF0000, 0xFF0000, false⟩, ⟨0, 3, 0xFF4000, 0xFF4000, false⟩,
    ⟨0, 8, 0xFFCC00, 0xFFCC00, false⟩]

/-- A reversed two-colour gauge of 8 pixels. -/
def reversedGauge : Gauge := ⟨500, 8, 0xFF0000, 0x00FF30, true⟩

/-- The gauge `reversedGauge` with the forward orientation. -/
def forwardGauge : Gauge := ⟨500, 8, 0xFF0000, 0x00FF30, false⟩

/-- Indeterminate `Alpha` bytes that all happen to be zero. -/
def noJunk : Nat → Nat → Nat := fun _ _ => 0

/-- One red gauge of 10 pixels at value 500, for the given range. -/
def tenPixels (range : Nat) : NeoGaugeDisplay :=
  displayOf 0 range 0 [⟨500, 10, 0xFF0000, 0xFF0000, false⟩]

/-- One red gauge of 2 pixels whose value 20000 lies far above the range 1. -/
def overdriven : NeoGaugeDisplay :=
  displayOf 0 1 0 [⟨20000, 2, 0xFF0000, 0xFF0000, false⟩]

/-- One reversed red-to-green gauge of 2 pixels at half scale, on a black
background. -/
def halfReversed : NeoGaugeDisplay :=
  displayOf 0 1023 0 [⟨512, 2, 0xFF0000, 0x00FF00, true⟩]

/-- Two full one-pixel gauges separated by one spacer pixel, on a blue
background. -/
def blueBackground : NeoGaugeDisplay :=
  displayOf 1 1023 0x0000FF [⟨1023, 1, 0xFF0000, 0xFF0000, false⟩,
    ⟨1023, 1, 0xFF4000, 0xFF4000, false⟩]

/-- A reversed gauge of 8 pixels followed by a plain one, on a blue background. -/
def twoGauges : NeoGaugeDisplay :=
  displayOf 1 1023 0x0000FF [reversedGauge, ⟨1023, 3, 0xFF4000, 0xFF4000, false⟩]

/-- A registry holding two gauges, the second one reversed. -/
def pairDisplay : NeoGaugeDisplay :=
  displayOf 1 1023 0 [⟨100, 5, 0xFF0000, 0xFF0000, false⟩, ⟨200, 4, 0x00FF00, 0x0000FF, true⟩]

/-- A solid orange gauge of 6 pixels, reversed. -/
def solidGauge : Gauge := ⟨0, 6, 0xFF4000, 0xFF4000, true⟩

/-- A reversed black-to-blue gauge of 3 pixels. -/
def blueRampReversed : Gauge := ⟨0, 3, 0x000000, 0x0000FF, true⟩

/-- The gauge `blueRampReversed` with the forward orientation. -/
def blueRampForward : Gauge := ⟨0, 3, 0x000000, 0x0000FF, false⟩

/-- A gauge of size 0 with two different colours, followed by a reversed
gauge of 3 pixels. -/
def withEmptyGauge : NeoGaugeDisplay :=
  displayOf 1 1023 0 [⟨0, 0, 0xFF0000, 0x00FF00, false⟩, ⟨100, 3, 0xFF0000, 0x0000FF, true⟩]

/-! ## Arithmetic of the narrowing conversions -/

theorem toUInt16_of_lt (n : Nat) (h : n < 65536) : toUInt16 (n : Int) = n := by
  unfold toUInt16
  omega

theorem toUInt8_of_range (x : Int) (h0 : 0 ≤ x) (h1 : x < 256) : (toUInt8 x : Int) = x := by
  unfold toUInt8
  omega

theorem toInt16_of_range (x : Int) (h0 : -32768 ≤ x) (h1 : x ≤ 32767) : toInt16 x = x := by
  unfold toInt16
  omega

/-! ## Layout: `totalNumberOfPixels` -/

theorem totalLoop_eq (gauges : List Gauge) (hsz : ∀ g ∈ gauges, g.size < 256) :
    ∀ k i acc, i + k ≤ gauges.length → acc + 255 * k < 65536 →
      NeoGaugeDisplay.totalLoop gauges k i acc
        = some (acc + (((gauges.drop i).take k).map Gauge.size).sum) := by
  intro k
  induction k with
  | zero => intro i acc _ _; simp [NeoGaugeDisplay.totalLoop]
  | succ k ih =>
    intro i acc hi hacc
    have hlt : i < gauges.length := by omega
    have hg : gauges[i].size < 256 := hsz _ (List.getElem_mem hlt)
    have hdrop : gauges.drop i = gauges[i] :: gauges.drop (i + 1) :=
      List.drop_eq_getElem_cons hlt
    have hcast : ((acc : Int) + (gauges[i].size : Int)) = ((acc + gauges[i].size : Nat) : Int) := by
      push_cast; rfl
    rw [NeoGaugeDisplay.totalLoop, List.getElem?_eq_getElem hlt]
    simp only []
    rw [hcast, toUInt16_of_lt _ (by omega), ih (i + 1) _ (by omega) (by omega), hdrop,
      List.take_succ_cons, List.map_cons, List.sum_cons, Nat.add_assoc]

/-- C6. For a well-formed registry holding between 1 and 16 gauges,
`totalNumberOfPixels()` returns the sum of the sizes of the gauges in use plus
`space * (n - 1)`, and that number is below 65536, so the 16-bit accumulator
never wraps. -/
theorem totalNumberOfPixels_eq (self : NeoGaugeDisplay) (hwf : self.WF)
    (hn : 1 ≤ self._numberOfGauges) :
    self.totalNumberOfPixels
        = some (sizeSum self self._numberOfGauges + self._space * (self._numberOfGauges - 1)) ∧
      sizeSum self self._numberOfGauges + self._space * (self._numberOfGauges - 1) < 65536 := by
  obtain ⟨_, hcount, hspace, _, _, hlen, _, hg⟩ := hwf
  have hsz : ∀ g ∈ self._gauges, g.size < 256 := fun g hgm => (hg g hgm).2.2.1
  have hloop := totalLoop_eq self._gauges hsz self._numberOfGauges 0 0 (by omega) (by omega)
  have hsum : sizeSum self self._numberOfGauges ≤ 255 * self._numberOfGauges := by
    unfold sizeSum
    have hl : ((self._gauges.take self._numberOfGauges).map Gauge.size).length
        = self._numberOfGauges := by
      simp; omega
    have := List.sum_le_card_nsmul ((self._gauges.take self._numberOfGauges).map Gauge.size) 255
      (by
        intro x hx
        obtain ⟨g, hgm, rfl⟩ := List.mem_map.1 hx
        have := hsz g (List.mem_of_mem_take hgm)
        omega)
    rw [hl] at this
    simpa [Nat.mul_comm] using this
  have hsp : self._space * (self._numberOfGauges - 1) ≤ 255 * 15 :=
    Nat.mul_le_mul (by omega) (by omega)
  refine ⟨?_, by omega⟩
  unfold NeoGaugeDisplay.totalNumberOfPixels
  rw [hloop]
  simp only [List.drop_zero, Nat.zero_add]
  have hcast : (((self._gauges.take self._numberOfGauges).map Gauge.size).sum : Int)
        + ((self._numberOfGauges : Int) - 1) * (self._space : Int)
      = ((sizeSum self self._numberOfGauges
          + self._space * (self._numberOfGauges - 1) : Nat) : Int) := by
    unfold sizeSum
    push_cast [Nat.cast_sub hn]
    ring
  rw [hcast, toUInt16_of_lt _ (by omega)]

/-- Witness of C6: sizes 5, 3 and 8 with 2 blank pixels between gauges give 20. -/
theorem totalNumberOfPixels_eq_witness :
    threeGauges.totalNumberOfPixels = some 20 ∧
      sizeSum threeGauges threeGauges._numberOfGauges
        + threeGauges._space * (threeGauges._numberOfGauges - 1) = 20 :=
  ⟨by
    have h := (totalNumberOfPixels_eq threeGauges (by decide) (by decide)).1
    rw [h]; rfl, by decide⟩

/-- C7. On a freshly constructed display with 2 blank pixels of spacing and no
gauge, `totalNumberOfPixels()` returns 65534, not 0: the spacer term
`(0 - 1) * 2` is negative and wraps in the 16-bit result. -/
theorem totalNumberOfPixels_empty_wraps :
    (NeoGaugeDisplay.init zeroed 6 2)._numberOfGauges = 0 ∧
      (NeoGaugeDisplay.init zeroed 6 2).totalNumberOfPixels = some 65534 := by
  decide

/-! ## Registry: `addGauge` -/

/-- C10. On a registry holding `N < 16` gauges, `addGauge(size)` returns `N`
and stores at index `N` the gauge with value 0, the given size, `reverse =
false` and both colours equal to entry `N mod 6` of the palette. -/
theorem addGauge_basic (self : NeoGaugeDisplay) (size : Nat)
    (hlen : self._gauges.length = 16) (hN : self._numberOfGauges < 16) :
    ∃ self1, self.addGauge size = some (self._numberOfGauges, self1) ∧
      self1._numberOfGauges = self._numberOfGauges + 1 ∧
      self1._gauges[self._numberOfGauges]? =
        some ⟨0, size,
          [0xFF0000, 0xFF4000, 0xFFCC00, 0x00CC00, 0x004080, 0xAA00FF].getD
            (self._numberOfGauges % 6) 0,
          [0xFF0000, 0xFF4000, 0xFFCC00, 0x00CC00, 0x004080, 0xAA00FF].getD
            (self._numberOfGauges % 6) 0,
          false⟩ := by
  refine ⟨{ self with
      _gauges := self._gauges.set self._numberOfGauges
        ⟨0, size, pgm_read_dword_near _RainbowColor (self._numberOfGauges % 6),
          pgm_read_dword_near _RainbowColor (self._numberOfGauges % 6), false⟩
      _numberOfGauges := (self._numberOfGauges + 1) % 256 }, ?_, ?_, ?_⟩
  · simp only [NeoGaugeDisplay.addGauge, if_pos hN]
  · show (self._numberOfGauges + 1) % 256 = self._numberOfGauges + 1
    omega
  · show (self._gauges.set self._numberOfGauges _)[self._numberOfGauges]? = _
    rw [List.getElem?_set_self (by omega)]
    rfl

/-- Witness of C10: the third basic gauge takes palette entry 2. -/
theorem addGauge_basic_witness :
    ∃ self1, (displayOf 0 1023 0 [zeroGauge, zeroGauge]).addGauge 7 = some (2, self1) ∧
      self1._numberOfGauges = 3 ∧
      self1._gauges[2]? = some ⟨0, 7, 0xFFCC00, 0xFFCC00, false⟩ :=
  addGauge_basic (displayOf 0 1023 0 [zeroGauge, zeroGauge]) 7 (by decide) (by decide)

/-! ## Pixel colour: `getPixelColor` -/

/-- C4. For a gauge of size at least 2, `getPixelColor` returns the effective
start colour at step 0 and the effective end colour at step `size - 1`; the
gauge value plays no part. -/
theorem getPixelColor_boundary (alpha : Nat) (g : Gauge) (hsize : 2 ≤ g.size) :
    NeoGaugeDisplay.getPixelColor alpha g 0 = some (effectiveStart g) ∧
      NeoGaugeDisplay.getPixelColor alpha g (g.size - 1) = some (effectiveEnd g) := by
  constructor
  · simp [NeoGaugeDisplay.getPixelColor, effectiveStart]
  · have h1 : g.size - 1 ≠ 0 := by omega
    have h2 : ((g.size - 1 : Nat) : Int) = (g.size : Int) - 1 := by omega
    simp [NeoGaugeDisplay.getPixelColor, effectiveEnd, h1, h2]

/-- Witness of C4 on a reversed gauge of 8 pixels. -/
theorem getPixelColor_boundary_witness :
    NeoGaugeDisplay.getPixelColor 0 reversedGauge 0 = some 0x00FF30 ∧
      NeoGaugeDisplay.getPixelColor 0 reversedGauge 7 = some 0xFF0000 :=
  getPixelColor_boundary 0 reversedGauge (by decide)

/-! ### Interior pixels -/

theorem tdiv_mul_bounds_nonneg (d : Int) (n m : Nat) (hn : 0 < n) (hm : m ≤ n) (hd : 0 ≤ d) :
    0 ≤ (m : Int) * Int.tdiv d n ∧ (m : Int) * Int.tdiv d n ≤ d := by
  have hq : 0 ≤ Int.tdiv d n := Int.tdiv_nonneg hd (by omega)
  have hle : Int.tdiv d n * n ≤ d := by
    rw [Int.tdiv_eq_ediv hd (by omega)]
    exact Int.ediv_mul_le d (by omega)
  have hmn : (m : Int) ≤ n := by exact_mod_cast hm
  constructor
  · exact Int.mul_nonneg (by omega) hq
  · calc (m : Int) * Int.tdiv d n ≤ (n : Int) * Int.tdiv d n :=
          Int.mul_le_mul_of_nonneg_right hmn hq
      _ = Int.tdiv d n * n := Int.mul_comm _ _
      _ ≤ d := hle

theorem tdiv_mul_bounds_nonpos (d : Int) (n m : Nat) (hn : 0 < n) (hm : m ≤ n) (hd : d ≤ 0) :
    d ≤ (m : Int) * Int.tdiv d n ∧ (m : Int) * Int.tdiv d n ≤ 0 := by
  have h := tdiv_mul_bounds_nonneg (-d) n m hn hm (by omega)
  rw [Int.neg_tdiv, Int.mul_neg] at h
  omega

theorem tdiv_fits (s e n : Nat) (hs : s < 256) (he : e < 256) (hn : 0 < n) :
    toInt16 (Int.tdiv ((e : Int) - s) n) = Int.tdiv ((e : Int) - s) n := by
  apply toInt16_of_range
  · rcases Int.le_total 0 ((e : Int) - s) with h | h
    · have := tdiv_mul_bounds_nonneg _ n 1 hn hn h
      omega
    · have := tdiv_mul_bounds_nonpos _ n 1 hn hn h
      omega
  · rcases Int.le_total 0 ((e : Int) - s) with h | h
    · have := tdiv_mul_bounds_nonneg _ n 1 hn hn h
      omega
    · have := tdiv_mul_bounds_nonpos _ n 1 hn hn h
      omega

/-- The ramp from the start stays between the two channel values. -/
theorem ramp_up_range (s e n m : Nat) (hs : s < 256) (he : e < 256) (hn : 0 < n) (hm : m ≤ n) :
    0 ≤ (s : Int) + m * Int.tdiv ((e : Int) - s) n ∧
      (s : Int) + m * Int.tdiv ((e : Int) - s) n < 256 := by
  rcases Int.le_total 0 ((e : Int) - s) with h | h
  · have := tdiv_mul_bounds_nonneg _ n m hn hm h
    omega
  · have := tdiv_mul_bounds_nonpos _ n m hn hm h
    omega

/-- The ramp back from the end stays between the two channel values. -/
theorem ramp_down_range (s e n m : Nat) (hs : s < 256) (he : e < 256) (hn : 0 < n) (hm : m ≤ n) :
    0 ≤ (e : Int) - m * Int.tdiv ((e : Int) - s) n ∧
      (e : Int) - m * Int.tdiv ((e : Int) - s) n < 256 := by
  rcases Int.le_total 0 ((e : Int) - s) with h | h
  · have := tdiv_mul_bounds_nonneg _ n m hn hm h
    omega
  · have := tdiv_mul_bounds_nonpos _ n m hn hm h
    omega

theorem Red_lt (c : Nat) : Red c < 256 := by unfold Red; omega

theorem Green_lt (c : Nat) : Green c < 256 := by unfold Green; omega

theorem Blue_lt (c : Nat) : Blue c < 256 := by unfold Blue; omega

theorem toUInt8_lt (x : Int) : toUInt8 x < 256 := by unfold toUInt8; omega

theorem Red_colorValue (a r g b : Nat) (hr : r < 256) : Red (colorValue a r g b) = r := by
  unfold Red colorValue; omega

theorem Green_colorValue (a r g b : Nat) (hg : g < 256) : Green (colorValue a r g b) = g := by
  unfold Green colorValue; omega

theorem Blue_colorValue (a r g b : Nat) (hb : b < 256) : Blue (colorValue a r g b) = b := by
  unfold Blue colorValue; omega

/-- One channel of an interior pixel, as the code stores it, is the exact
integer of the specification's ramp. -/
theorem channel_store_up (s e n step : Nat) (hs : s < 256) (he : e < 256) (hn : 0 < n)
    (hstep : step ≤ n) :
    (toUInt8 ((s : Int) + step * toInt16 (Int.tdiv ((e : Int) - s) n)) : Int)
      = (s : Int) + step * Int.tdiv ((e : Int) - s) n := by
  rw [tdiv_fits s e n hs he hn]
  have := ramp_up_range s e n step hs he hn hstep
  exact toUInt8_of_range _ this.1 this.2

theorem channel_store_down (s e n step : Nat) (hs : s < 256) (he : e < 256) (hn : n < 256)
    (hstep : step + 1 ≤ n) :
    (toUInt8 ((e : Int) - (toUInt8 ((n : Int) - 1 - step) : Nat)
        * toInt16 (Int.tdiv ((e : Int) - s) n)) : Int)
      = (e : Int) - ((n : Int) - 1 - step) * Int.tdiv ((e : Int) - s) n := by
  have hpos : 0 < n := by omega
  rw [tdiv_fits s e n hs he hpos]
  have hm : (toUInt8 ((n : Int) - 1 - step) : Int) = ((n - 1 - step : Nat) : Int) := by
    rw [toUInt8_of_range _ (by omega) (by omega)]
    omega
  have hm2 : ((n : Int) - 1 - step) = ((n - 1 - step : Nat) : Int) := by omega
  rw [hm, hm2]
  have := ramp_down_range s e n (n - 1 - step) hs he hpos (by omega)
  exact toUInt8_of_range _ this.1 this.2

/-- C5. For a gauge whose effective endpoint colours differ and an interior
step (`0 < step < size - 1`), `getPixelColor` returns a colour each of whose
red, green and blue channels is the exact integer of the specification's
ramp, which therefore lies in 0..255: no 8-bit store wraps. -/
theorem getPixelColor_interior (alpha : Nat) (g : Gauge) (step : Nat) (hsize : g.size < 256)
    (hne : effectiveStart g ≠ effectiveEnd g) (h0 : 0 < step) (h1 : step + 1 < g.size) :
    ∃ c, NeoGaugeDisplay.getPixelColor alpha g step = some c ∧
      (Red c : Int) = channelRamp (Red (effectiveStart g)) (Red (effectiveEnd g)) g.size step ∧
      (Green c : Int)
        = channelRamp (Green (effectiveStart g)) (Green (effectiveEnd g)) g.size step ∧
      (Blue c : Int)
        = channelRamp (Blue (effectiveStart g)) (Blue (effectiveEnd g)) g.size step ∧
      Red c < 256 ∧ Green c < 256 ∧ Blue c < 256 := by
  have hs0 : step ≠ 0 := by omega
  have hs1 : ¬ ((step : Int) = (g.size : Int) - 1) := by omega
  have hsz : g.size ≠ 0 := by omega
  have hpos : 0 < g.size := by omega
  unfold effectiveStart effectiveEnd at hne
  unfold NeoGaugeDisplay.getPixelColor
  simp only [if_neg hs0, if_neg hs1, if_neg hne, if_neg hsz]
  unfold channelRamp effectiveStart effectiveEnd
  by_cases hhalf : step < g.size / 2
  · simp only [if_pos hhalf]
    refine ⟨_, rfl, ?_, ?_, ?_, Red_lt _, Green_lt _, Blue_lt _⟩
    · rw [Red_colorValue _ _ _ _ (toUInt8_lt _)]
      exact channel_store_up _ _ _ _ (Red_lt _) (Red_lt _) hpos (by omega)
    · rw [Green_colorValue _ _ _ _ (toUInt8_lt _)]
      exact channel_store_up _ _ _ _ (Green_lt _) (Green_lt _) hpos (by omega)
    · rw [Blue_colorValue _ _ _ _ (toUInt8_lt _)]
      exact channel_store_up _ _ _ _ (Blue_lt _) (Blue_lt _) hpos (by omega)
  · simp only [if_neg hhalf]
    refine ⟨_, rfl, ?_, ?_, ?_, Red_lt _, Green_lt _, Blue_lt _⟩
    · rw [Red_colorValue _ _ _ _ (toUInt8_lt _)]
      exact channel_store_down _ _ _ _ (Red_lt _) (Red_lt _) hsize (by omega)
    · rw [Green_colorValue _ _ _ _ (toUInt8_lt _)]
      exact channel_store_down _ _ _ _ (Green_lt _) (Green_lt _) hsize (by omega)
    · rw [Blue_colorValue _ _ _ _ (toUInt8_lt _)]
      exact channel_store_down _ _ _ _ (Blue_lt _) (Blue_lt _) hsize (by omega)

/-- Witness of C5: step 5 of the reversed 8-pixel gauge, in the second half. -/
theorem getPixelColor_interior_witness :
    ∃ c, NeoGaugeDisplay.getPixelColor 7 reversedGauge 5 = some c ∧
      (Red c : Int) = channelRamp (Red (effectiveStart reversedGauge))
        (Red (effectiveEnd reversedGauge)) reversedGauge.size 5 ∧
      (Green c : Int) = channelRamp (Green (effectiveStart reversedGauge))
        (Green (effectiveEnd reversedGauge)) reversedGauge.size 5 ∧
      (Blue c : Int) = channelRamp (Blue (effectiveStart reversedGauge))
        (Blue (effectiveEnd reversedGauge)) reversedGauge.size 5 ∧
      Red c < 256 ∧ Green c < 256 ∧ Blue c < 256 :=
  getPixelColor_interior 7 reversedGauge 5 (by decide) (by decide) (by decide) (by decide)

/-! ## Rendering: `show` -/

theorem getPixelColor_defined (alpha : Nat) (g : Gauge) (step : Nat) (hsize : 0 < g.size) :
    NeoGaugeDisplay.getPixelColor alpha g step = some (baseColor alpha g step) := by
  have hsz : g.size ≠ 0 := by omega
  unfold baseColor NeoGaugeDisplay.getPixelColor
  simp only [if_neg hsz]
  split_ifs <;> rfl

theorem gaugeReading_defined (range : Nat) (g : Gauge) (hrange : 1 ≤ range) :
    NeoGaugeDisplay.gaugeReading range g
      = some (toInt16 (Int.tdiv (g.value * g.size) range)) := by
  have h : range ≠ 0 := by omega
  simp [NeoGaugeDisplay.gaugeReading, map, h]

theorem map_range_succ {α : Type} (f : Nat → α) (k : Nat) :
    (List.range (k + 1)).map f = f 0 :: (List.range k).map fun j => f (j + 1) := by
  rw [List.range_succ_eq_map, List.map_cons, List.map_map]
  rfl

theorem showPixels_eq (junk : Nat → Nat) (background : Nat) (g : Gauge) (reading : Int)
    (hsize : g.size < 256) :
    ∀ k pixel pixelCounter calls, pixel + k ≤ g.size →
      NeoGaugeDisplay.showPixels junk background g reading k pixel pixelCounter calls
        = some (pixelCounter + k,
            calls ++ (List.range k).map fun j =>
              DriverCall.setPixelColor (pixelCounter + j)
                (shownColor (NeoGaugeDisplay.pixelColor g reading (pixel + j)
                  (baseColor (junk (pixel + j)) g (pixel + j)) background))) := by
  intro k
  induction k with
  | zero => intro pixel pixelCounter calls _; simp [NeoGaugeDisplay.showPixels]
  | succ k ih =>
    intro pixel pixelCounter calls hle
    have hmod : pixel % 256 = pixel := Nat.mod_eq_of_lt (by omega)
    rw [NeoGaugeDisplay.showPixels, hmod, getPixelColor_defined _ _ _ (by omega)]
    simp only []
    rw [ih (pixel + 1) (pixelCounter + 1) _ (by omega), map_range_succ]
    simp only [NeoGaugeDisplay.pixelCall, shownColor, List.append_assoc, List.singleton_append,
      Nat.add_zero, Nat.add_assoc, Nat.add_comm 1]

theorem showSpace_eq :
    ∀ k pixelCounter calls,
      NeoGaugeDisplay.showSpace k pixelCounter calls
        = (pixelCounter + k, calls ++ spaceCalls k pixelCounter) := by
  intro k
  induction k with
  | zero => intro pixelCounter calls; simp [NeoGaugeDisplay.showSpace, spaceCalls]
  | succ k ih =>
    intro pixelCounter calls
    rw [NeoGaugeDisplay.showSpace, ih]
    unfold spaceCalls
    rw [map_range_succ]
    simp only [driverColor, List.append_assoc, List.singleton_append,
      Nat.add_zero, Nat.add_assoc, Nat.add_comm 1]

theorem gauges_get (d : NeoGaugeDisplay) (i : Nat) (hi : i < d._gauges.length) :
    d._gauges[i]? = some (gaugeAt d i) := by
  unfold gaugeAt
  rw [List.getD_eq_getElem?_getD, List.getElem?_eq_getElem hi]
  rfl

theorem gaugeAt_mem (d : NeoGaugeDisplay) (i : Nat) (hi : i < d._gauges.length) :
    gaugeAt d i ∈ d._gauges := by
  have h := gauges_get d i hi
  rw [List.getElem?_eq_getElem hi] at h
  have h2 : d._gauges[i] = gaugeAt d i := Option.some.inj h
  rw [← h2]
  exact List.getElem_mem hi

theorem sizeSum_succ (d : NeoGaugeDisplay) (i : Nat) (hi : i < d._gauges.length) :
    sizeSum d (i + 1) = sizeSum d i + (gaugeAt d i).size := by
  unfold sizeSum
  rw [List.take_succ, gauges_get d i hi]
  simp

theorem gaugeOffset_succ (d : NeoGaugeDisplay) (i : Nat) (hi : i < d._gauges.length) :
    gaugeOffset d (i + 1) = gaugeOffset d i + (gaugeAt d i).size + d._space := by
  unfold gaugeOffset
  rw [sizeSum_succ d i hi, Nat.add_mul]
  omega

theorem gaugeCalls_length (junk : Nat → Nat) (background : Nat) (g : Gauge) (reading : Int)
    (base : Nat) : (gaugeCalls junk background g reading base).length = g.size := by
  simp [gaugeCalls]

theorem spaceCalls_length (space base : Nat) : (spaceCalls space base).length = space := by
  simp [spaceCalls]

/-- The gauge loop of `show`, from gauge `i` on, appends the segments of the
gauges `i, i + 1, ...` to the calls made so far. -/
theorem showGauges_eq (d : NeoGaugeDisplay) (junk : Nat → Nat → Nat) (hwf : d.WF)
    (hrange : 1 ≤ d._range) :
    ∀ k i pixelCounter calls, i + k = d._numberOfGauges → pixelCounter = gaugeOffset d i →
      ∃ pixelCounter1,
        NeoGaugeDisplay.showGauges d junk k i pixelCounter calls
          = some (pixelCounter1, calls ++ (List.range' i k).flatMap (segmentCalls d junk)) := by
  obtain ⟨_, hcount, _, _, _, hlen, _, hg⟩ := hwf
  intro k
  induction k with
  | zero =>
    intro i pixelCounter calls _ _
    exact ⟨pixelCounter, by simp [NeoGaugeDisplay.showGauges]⟩
  | succ k ih =>
    intro i pixelCounter calls hik hpc
    have hi : i < d._gauges.length := by omega
    have hsize : (gaugeAt d i).size < 256 := (hg _ (gaugeAt_mem d i hi)).2.2.1
    have hread := gaugeReading_defined d._range (gaugeAt d i) hrange
    have hreadAt : readingAt d i = toInt16 (Int.tdiv ((gaugeAt d i).value * (gaugeAt d i).size)
        d._range) := by
      unfold readingAt
      rw [hread]
      rfl
    have hpix := showPixels_eq (junk i) d._background (gaugeAt d i) (readingAt d i) hsize
      (gaugeAt d i).size 0 pixelCounter calls (by omega)
    rw [NeoGaugeDisplay.showGauges, gauges_get d i hi]
    simp only []
    rw [hread]
    simp only []
    rw [← hreadAt, hpix]
    simp only []
    have hseg : (calls ++ (List.range (gaugeAt d i).size).map fun j =>
          DriverCall.setPixelColor (pixelCounter + j)
            (shownColor (NeoGaugeDisplay.pixelColor (gaugeAt d i) (readingAt d i) (0 + j)
              (baseColor (junk i (0 + j)) (gaugeAt d i) (0 + j)) d._background)))
        = calls ++ gaugeCalls (junk i) d._background (gaugeAt d i) (readingAt d i)
            (gaugeOffset d i) := by
      unfold gaugeCalls
      simp only [Nat.zero_add, hpc]
    rw [hseg, List.range'_succ, List.flatMap_cons]
    by_cases hlast : (i : Int) < (d._numberOfGauges : Int) - 1
    · have hnext : i + 1 < d._numberOfGauges := by omega
      rw [if_pos hlast, showSpace_eq]
      simp only []
      obtain ⟨pc1, hpc1⟩ := ih (i + 1)
        (pixelCounter + (gaugeAt d i).size + d._space)
        (calls ++ gaugeCalls (junk i) d._background (gaugeAt d i) (readingAt d i)
            (gaugeOffset d i) ++ spaceCalls d._space (pixelCounter + (gaugeAt d i).size))
        (by omega) (by rw [gaugeOffset_succ d i hi, hpc])
      refine ⟨pc1, ?_⟩
      rw [hpc1]
      unfold segmentCalls
      rw [if_pos hnext, hpc]
      simp only [List.append_assoc]
    · have hnext : ¬ (i + 1 < d._numberOfGauges) := by omega
      have hk : k = 0 := by omega
      subst hk
      rw [if_neg hlast]
      refine ⟨pixelCounter + (gaugeAt d i).size, ?_⟩
      unfold segmentCalls
      rw [if_neg hnext]
      simp [NeoGaugeDisplay.showGauges]

/-- Defined-ness and shape of `show`: on a well-formed display with a nonzero
range the call runs to completion and makes, in order, the calls of every
gauge segment and then the driver's `show()`. -/
theorem showDisplay_eq (d : NeoGaugeDisplay) (junk : Nat → Nat → Nat) (hwf : d.WF)
    (hrange : 1 ≤ d._range) :
    NeoGaugeDisplay.showDisplay d junk
      = some ((List.range d._numberOfGauges).flatMap (segmentCalls d junk)
          ++ [DriverCall.show]) := by
  obtain ⟨pc1, h⟩ := showGauges_eq d junk hwf hrange d._numberOfGauges 0 0 [] (by omega)
    (by simp [gaugeOffset, sizeSum])
  unfold NeoGaugeDisplay.showDisplay
  rw [h, List.range_eq_range']
  simp

theorem segmentCalls_length (d : NeoGaugeDisplay) (junk : Nat → Nat → Nat) (i : Nat)
    (hi : i + 1 < d._numberOfGauges) :
    (segmentCalls d junk i).length = (gaugeAt d i).size + d._space := by
  unfold segmentCalls
  rw [if_pos hi, List.length_append, gaugeCalls_length, spaceCalls_length]

/-- The segments of the gauges before gauge `i` fill the strand up to the
offset of gauge `i`. -/
theorem segments_length (d : NeoGaugeDisplay) (junk : Nat → Nat → Nat)
    (hcount : d._numberOfGauges ≤ d._gauges.length) :
    ∀ i, i < d._numberOfGauges →
      ((List.range i).flatMap (segmentCalls d junk)).length = gaugeOffset d i := by
  intro i
  induction i with
  | zero => intro _; simp [gaugeOffset, sizeSum]
  | succ i ih =>
    intro hi
    rw [List.range_succ, List.flatMap_append, List.length_append, ih (by omega),
      gaugeOffset_succ d i (by omega)]
    simp only [List.flatMap_cons, List.flatMap_nil, List.append_nil]
    rw [segmentCalls_length d junk i hi]
    omega

theorem range_split (n i : Nat) (hi : i < n) :
    List.range n = List.range i ++ i :: List.range' (i + 1) (n - i - 1) := by
  have h := List.range'_append 0 i (n - i) 1
  rw [Nat.sub_add_cancel (by omega)] at h
  have h2 : n - i = (n - i - 1) + 1 := by omega
  rw [List.range_eq_range', List.range_eq_range', ← h, h2, List.range'_succ]
  simp

/-- The calls of `show`, split around the segment of gauge `i`. -/
theorem showDisplay_split (d : NeoGaugeDisplay) (junk : Nat → Nat → Nat) (hwf : d.WF)
    (hrange : 1 ≤ d._range) (i : Nat) (hi : i < d._numberOfGauges) :
    ∃ before after, before.length = gaugeOffset d i ∧
      NeoGaugeDisplay.showDisplay d junk
        = some (before ++ (segmentCalls d junk i ++ after)) := by
  refine ⟨(List.range i).flatMap (segmentCalls d junk),
    (List.range' (i + 1) (d._numberOfGauges - i - 1)).flatMap (segmentCalls d junk)
      ++ [DriverCall.show], ?_, ?_⟩
  · exact segments_length d junk (by have := hwf.2.1; have := hwf.2.2.2.2.2.1; omega) i hi
  · rw [showDisplay_eq d junk hwf hrange, range_split _ i hi, List.flatMap_append,
      List.flatMap_cons]
    simp only [List.append_assoc]

/-- Pixel `p` of gauge `i` is written by the call at position
`gaugeOffset d i + p`, with that strand index and the colour chosen in the
pixel loop. -/
theorem showDisplay_pixel (d : NeoGaugeDisplay) (junk : Nat → Nat → Nat) (hwf : d.WF)
    (hrange : 1 ≤ d._range) (i p : Nat) (hi : i < d._numberOfGauges)
    (hp : p < (gaugeAt d i).size) :
    ∃ calls, NeoGaugeDisplay.showDisplay d junk = some calls ∧
      calls[gaugeOffset d i + p]? =
        some (DriverCall.setPixelColor (gaugeOffset d i + p)
          (shownColor (NeoGaugeDisplay.pixelColor (gaugeAt d i) (readingAt d i) p
            (baseColor (junk i p) (gaugeAt d i) p) d._background))) := by
  obtain ⟨before, after, hlen, hshow⟩ := showDisplay_split d junk hwf hrange i hi
  refine ⟨_, hshow, ?_⟩
  rw [List.getElem?_append_right (by omega), hlen, Nat.add_sub_cancel_left]
  unfold segmentCalls
  rw [List.append_assoc, List.getElem?_append_left (by rw [gaugeCalls_length]; exact hp)]
  unfold gaugeCalls
  rw [List.getElem?_map, List.getElem?_range hp]
  rfl

/-- Spacer pixel `s` after gauge `i` (not the last gauge) is written by the
call at position `gaugeOffset d i + size + s`, with that strand index and the
colour 0. -/
theorem showDisplay_spacer (d : NeoGaugeDisplay) (junk : Nat → Nat → Nat) (hwf : d.WF)
    (hrange : 1 ≤ d._range) (i s : Nat) (hi : i + 1 < d._numberOfGauges)
    (hs : s < d._space) :
    ∃ calls, NeoGaugeDisplay.showDisplay d junk = some calls ∧
      calls[gaugeOffset d i + (gaugeAt d i).size + s]? =
        some (DriverCall.setPixelColor (gaugeOffset d i + (gaugeAt d i).size + s) 0) := by
  obtain ⟨before, after, hlen, hshow⟩ := showDisplay_split d junk hwf hrange i (by omega)
  refine ⟨_, hshow, ?_⟩
  rw [List.getElem?_append_right (by omega), hlen]
  have hidx : gaugeOffset d i + (gaugeAt d i).size + s - gaugeOffset d i
      = (gaugeAt d i).size + s := by omega
  rw [hidx]
  unfold segmentCalls
  rw [if_pos hi, List.append_assoc,
    List.getElem?_append_right (by rw [gaugeCalls_length]; omega), gaugeCalls_length,
    Nat.add_sub_cancel_left,
    List.getElem?_append_left (by rw [spaceCalls_length]; exact hs)]
  unfold spaceCalls
  rw [List.getElem?_map, List.getElem?_range hs]
  rfl

/-! ### Lit and unlit pixels -/

theorem pick_forward (g : Gauge) (reading : Int) (p : Nat) (hrev : g.reverse = false) :
    NeoGaugeDisplay.pickPixel g reading p = NeoGaugeDisplay.Pick.computed ↔
      (p : Int) + 1 ≤ reading := by
  by_cases h : reading ≥ (p : Int) + 1
  · simp [NeoGaugeDisplay.pickPixel, hrev, h]
  · simp [NeoGaugeDisplay.pickPixel, hrev, h]

theorem pick_reversed (g : Gauge) (reading : Int) (p : Nat) (hrev : g.reverse = true) :
    NeoGaugeDisplay.pickPixel g reading p = NeoGaugeDisplay.Pick.computed ↔
      (g.size : Int) - p - 1 < reading := by
  by_cases h : reading ≤ (g.size : Int) - p - 1
  · simp [NeoGaugeDisplay.pickPixel, hrev, h]
  · simp [NeoGaugeDisplay.pickPixel, hrev, h]
    omega

/-- C1. On one non-reversed red gauge with `size = 2`, `value = 20000` and
`range = 1`, a state reached by `addGauge(2)`, `setRange(1)` and
`setGaugeValue(0, 20000)` on a new display, the claimed number of lit pixels
is `min 2 (max 0 (20000 * 2 / 1)) = 2`, yet `show` renders both pixels with
the black background: the scaled value 40000 does not fit the `int16_t`
variable `reading`, which holds -25536. -/
theorem show_overdriven_unlit :
    (((NeoGaugeDisplay.init zeroed 6 0).addGauge 2).bind fun r =>
        (r.2.setRange 1).setGaugeValue 0 20000) = some overdriven ∧
      NeoGaugeDisplay.showDisplay overdriven noJunk
        = some [DriverCall.setPixelColor 0 0, DriverCall.setPixelColor 1 0, DriverCall.show] ∧
      NeoGaugeDisplay.gaugeReading overdriven._range (gaugeAt overdriven 0) = some (-25536) ∧
      min (2 : Int) (max 0 ((gaugeAt overdriven 0).value * (gaugeAt overdriven 0).size
        / overdriven._range)) = 2 ∧
      shownColor (baseColor 0 (gaugeAt overdriven 0) 0) = 0xFF0000 ∧
      shownColor (baseColor 0 (gaugeAt overdriven 0) 1) = 0xFF0000 := by
  decide

/-- Scaled value of the specification against the code's reading: for a step
below the size, `step + 1 <= q` with `q` the C quotient (truncated toward zero)
holds exactly when `step < min size (max 0 (floor quotient))`. -/
theorem lit_iff_below_count (v : Int) (size range step : Nat) (hrange : 1 ≤ range)
    (hstep : step < size) :
    (step : Int) + 1 ≤ Int.tdiv (v * size) range ↔
      (step : Int) < min (size : Int) (max 0 (v * size / range)) := by
  rcases Int.lt_or_le (v * size) 0 with hneg | hpos
  · have h1 : v * size / range < 0 := Int.ediv_neg' hneg (by omega)
    have h2 : Int.tdiv (v * size) range ≤ 0 := by
      have h3 : v * size = -(-(v * size)) := by omega
      rw [h3, Int.neg_tdiv]
      have := Int.tdiv_nonneg (a := -(v * size)) (b := range) (by omega) (by omega)
      omega
    omega
  · rw [Int.tdiv_eq_ediv hpos (by omega)]
    omega

/-- The forward rule behind C1, where the reading is not narrowed: for a
non-reversed gauge `g` in slot `i` of a well-formed display with a nonzero
range, if `value * size / range` fits in 16 bits then `show` renders pixel `p`
with the computed colour when `p < min size (max 0 (value * size / range))`
and with the background colour otherwise. -/
theorem show_forward_pixel (d : NeoGaugeDisplay) (junk : Nat → Nat → Nat) (i p : Nat)
    (g : Gauge) (hwf : d.WF) (hrange : 1 ≤ d._range) (hi : i < d._numberOfGauges)
    (hg : d._gauges[i]? = some g) (hrev : g.reverse = false)
    (hfit : -32768 ≤ Int.tdiv (g.value * g.size) d._range ∧
      Int.tdiv (g.value * g.size) d._range ≤ 32767)
    (hp : p < g.size) :
    ∃ c calls,
      NeoGaugeDisplay.getPixelColor (junk i p) g p = some c ∧
      NeoGaugeDisplay.showDisplay d junk = some calls ∧
      calls[gaugeOffset d i + p]? =
        some (DriverCall.setPixelColor (gaugeOffset d i + p)
          (if (p : Int) < min (g.size : Int) (max 0 (g.value * g.size / d._range))
            then shownColor c else shownColor d._background)) := by
  have hlen : i < d._gauges.length := by
    have := hwf.2.1; have := hwf.2.2.2.2.2.1; omega
  have hgi : gaugeAt d i = g := by
    have h := gauges_get d i hlen
    rw [hg] at h
    exact (Option.some.inj h).symm
  have hreadAt : readingAt d i = Int.tdiv (g.value * g.size) d._range := by
    unfold readingAt
    rw [hgi, gaugeReading_defined d._range g hrange, toInt16_of_range _ hfit.1 hfit.2]
    rfl
  obtain ⟨calls, hshow, hcall⟩ := showDisplay_pixel d junk hwf hrange i p hi
    (by rw [hgi]; exact hp)
  refine ⟨_, calls, getPixelColor_defined _ g p (by omega), hshow, ?_⟩
  rw [hcall, hgi, hreadAt]
  have hiff := lit_iff_below_count g.value g.size d._range p hrange hp
  unfold NeoGaugeDisplay.pixelColor
  by_cases hlit : (p : Int) < min (g.size : Int) (max 0 (g.value * g.size / d._range))
  · rw [if_pos hlit, (pick_forward g _ p hrev).2 (hiff.2 hlit)]
  · rw [if_neg hlit]
    have hpick : NeoGaugeDisplay.pickPixel g (Int.tdiv (g.value * g.size) d._range) p
        = NeoGaugeDisplay.Pick.background := by
      cases hc : NeoGaugeDisplay.pickPixel g (Int.tdiv (g.value * g.size) d._range) p with
      | computed => exact absurd (hiff.1 ((pick_forward g _ p hrev).1 hc)) hlit
      | background => rfl
    rw [hpick]

/-- The two sample readings of the specification: with `size = 10` and
`value = 500`, range 1023 lights 4 pixels and range 1000 lights 5, counted
from the first physical pixel. -/
theorem show_ten_pixels :
    NeoGaugeDisplay.showDisplay (tenPixels 1023) noJunk
        = some ((List.range 10).map (fun p =>
            DriverCall.setPixelColor p (if p < 4 then 0xFF0000 else 0)) ++ [DriverCall.show]) ∧
      NeoGaugeDisplay.showDisplay (tenPixels 1000) noJunk
        = some ((List.range 10).map (fun p =>
            DriverCall.setPixelColor p (if p < 5 then 0xFF0000 else 0)) ++ [DriverCall.show]) := by
  decide

/-- C2 fails as stated: on a reversed 2-pixel gauge with reading 1, pixel 0
satisfies `reading <= size - step - 1` and is rendered with the background
(black), not with its computed colour (green); pixel 1 does not satisfy it
and is rendered with its computed colour (red), not with the background. -/
theorem show_reversed_claim_fails :
    NeoGaugeDisplay.showDisplay halfReversed noJunk
        = some [DriverCall.setPixelColor 0 0, DriverCall.setPixelColor 1 0xFF0000,
            DriverCall.show] ∧
      NeoGaugeDisplay.gaugeReading halfReversed._range (gaugeAt halfReversed 0) = some 1 ∧
      (gaugeAt halfReversed 0).reverse = true ∧
      (1 : Int) ≤ (gaugeAt halfReversed 0).size - 0 - 1 ∧
      shownColor (baseColor 0 (gaugeAt halfReversed 0) 0) = 0x00FF00 ∧
      ¬ ((1 : Int) ≤ (gaugeAt halfReversed 0).size - 1 - 1) ∧
      shownColor (baseColor 0 (gaugeAt halfReversed 0) 1) = 0xFF0000 ∧
      shownColor halfReversed._background = 0 := by
  decide

/-- C2, amended. For a reversed gauge `g` in slot `i` of a well-formed display
with a nonzero range, whose scaled value `value * size / range` (truncated
toward zero) fits in 16 bits, and for every step below its size, `show`
renders pixel `step` with the background colour when
`reading <= size - step - 1` and with the gauge's computed colour otherwise,
where `reading = value * size / range`. -/
theorem show_reversed_pixel (d : NeoGaugeDisplay) (junk : Nat → Nat → Nat) (i step : Nat)
    (g : Gauge) (hwf : d.WF) (hrange : 1 ≤ d._range) (hi : i < d._numberOfGauges)
    (hg : d._gauges[i]? = some g) (hrev : g.reverse = true)
    (hfit : -32768 ≤ Int.tdiv (g.value * g.size) d._range ∧
      Int.tdiv (g.value * g.size) d._range ≤ 32767)
    (hstep : step < g.size) :
    ∃ c calls,
      NeoGaugeDisplay.gaugeReading d._range g
        = some (Int.tdiv (g.value * g.size) d._range) ∧
      NeoGaugeDisplay.getPixelColor (junk i step) g step = some c ∧
      NeoGaugeDisplay.showDisplay d junk = some calls ∧
      calls[gaugeOffset d i + step]? =
        some (DriverCall.setPixelColor (gaugeOffset d i + step)
          (if Int.tdiv (g.value * g.size) d._range ≤ (g.size : Int) - step - 1
            then shownColor d._background else shownColor c)) := by
  have hlen : i < d._gauges.length := by
    have := hwf.2.1; have := hwf.2.2.2.2.2.1; omega
  have hgi : gaugeAt d i = g := by
    have h := gauges_get d i hlen
    rw [hg] at h
    exact (Option.some.inj h).symm
  have hread : NeoGaugeDisplay.gaugeReading d._range g
      = some (Int.tdiv (g.value * g.size) d._range) := by
    rw [gaugeReading_defined d._range g hrange, toInt16_of_range _ hfit.1 hfit.2]
  have hreadAt : readingAt d i = Int.tdiv (g.value * g.size) d._range := by
    unfold readingAt
    rw [hgi, hread]
    rfl
  obtain ⟨calls, hshow, hcall⟩ := showDisplay_pixel d junk hwf hrange i step hi
    (by rw [hgi]; exact hstep)
  refine ⟨_, calls, hread, getPixelColor_defined _ g step (by omega), hshow, ?_⟩
  rw [hcall, hgi, hreadAt]
  unfold NeoGaugeDisplay.pixelColor NeoGaugeDisplay.pickPixel
  rw [if_pos hrev]
  split_ifs <;> rfl

/-- Witness of the amended C2: pixel 5 of the reversed 8-pixel gauge in slot 0,
whose scaled value `500 * 8 / 1023 = 3` fits in 16 bits. -/
theorem show_reversed_pixel_witness :
    ∃ c calls,
      NeoGaugeDisplay.gaugeReading twoGauges._range reversedGauge
        = some (Int.tdiv (reversedGauge.value * reversedGauge.size) twoGauges._range) ∧
      NeoGaugeDisplay.getPixelColor (noJunk 0 5) reversedGauge 5 = some c ∧
      NeoGaugeDisplay.showDisplay twoGauges noJunk = some calls ∧
      calls[gaugeOffset twoGauges 0 + 5]? =
        some (DriverCall.setPixelColor (gaugeOffset twoGauges 0 + 5)
          (if Int.tdiv (reversedGauge.value * reversedGauge.size) twoGauges._range
              ≤ (reversedGauge.size : Int) - (5 : Nat) - 1
            then shownColor twoGauges._background else shownColor c)) :=
  show_reversed_pixel twoGauges noJunk 0 5 reversedGauge (by decide) (by decide) (by decide)
    (by decide) (by decide) (by decide) (by decide)

theorem countP_lt (n m : Nat) : (List.range n).countP (fun p => decide (p < m)) = min n m := by
  induction n with
  | zero => simp
  | succ n ih =>
    rw [List.range_succ, List.countP_append, ih]
    by_cases h : n < m
    · simp [List.countP_cons, h]; omega
    · simp [List.countP_cons, h]; omega

theorem countP_ge (n a : Nat) : (List.range n).countP (fun p => decide (a ≤ p)) = n - a := by
  induction n with
  | zero => simp
  | succ n ih =>
    rw [List.range_succ, List.countP_append, ih]
    by_cases h : a ≤ n
    · simp [List.countP_cons, h]; omega
    · simp [List.countP_cons, h]; omega

theorem litCount_forward (g : Gauge) (reading : Int) (hrev : g.reverse = false) :
    litCount g reading = min g.size reading.toNat := by
  unfold litCount
  rw [← countP_lt]
  apply List.countP_congr
  intro p _
  rw [decide_eq_true_eq, decide_eq_true_eq, pick_forward g reading p hrev]
  omega

theorem litCount_reversed (g : Gauge) (reading : Int) (hrev : g.reverse = true) :
    litCount g reading = g.size - ((g.size : Int) - reading).toNat := by
  unfold litCount
  rw [← countP_ge]
  apply List.countP_congr
  intro p _
  rw [decide_eq_true_eq, decide_eq_true_eq, pick_reversed g reading p hrev]
  omega

/-- C3. For a range of at least 1, a reversed gauge and a non-reversed gauge
with the same size and value get the same reading from `show`; pixel `step` of
the reversed gauge takes the computed colour exactly when pixel
`size - 1 - step` of the non-reversed gauge does, and both gauges have the
same number of such pixels. -/
theorem reversed_mirrors_forward (range : Nat) (gr gn : Gauge) (hrange : 1 ≤ range)
    (hr : gr.reverse = true) (hn : gn.reverse = false) (hsize : gr.size = gn.size)
    (hvalue : gr.value = gn.value) :
    ∃ reading,
      NeoGaugeDisplay.gaugeReading range gr = some reading ∧
      NeoGaugeDisplay.gaugeReading range gn = some reading ∧
      (∀ step, step < gr.size →
        (NeoGaugeDisplay.pickPixel gr reading step = NeoGaugeDisplay.Pick.computed ↔
          NeoGaugeDisplay.pickPixel gn reading (gn.size - 1 - step)
            = NeoGaugeDisplay.Pick.computed)) ∧
      litCount gr reading = litCount gn reading := by
  refine ⟨_, gaugeReading_defined range gr hrange, ?_, ?_, ?_⟩
  · rw [gaugeReading_defined range gn hrange, hsize, hvalue]
  · intro step hstep
    have hcast : ((gn.size - 1 - step : Nat) : Int) = (gn.size : Int) - 1 - step := by omega
    rw [pick_reversed gr _ step hr, pick_forward gn _ _ hn, hcast, hsize]
    omega
  · rw [litCount_reversed gr _ hr, litCount_forward gn _ hn, hsize]
    omega

/-- Witness of C3: the 8-pixel gauge at value 500 of 1023 in both orientations. -/
theorem reversed_mirrors_forward_witness :
    ∃ reading,
      NeoGaugeDisplay.gaugeReading 1023 reversedGauge = some reading ∧
      NeoGaugeDisplay.gaugeReading 1023 forwardGauge = some reading ∧
      (∀ step, step < reversedGauge.size →
        (NeoGaugeDisplay.pickPixel reversedGauge reading step = NeoGaugeDisplay.Pick.computed ↔
          NeoGaugeDisplay.pickPixel forwardGauge reading (forwardGauge.size - 1 - step)
            = NeoGaugeDisplay.Pick.computed)) ∧
      litCount reversedGauge reading = litCount forwardGauge reading :=
  reversed_mirrors_forward 1023 reversedGauge forwardGauge (by decide) (by decide) (by decide)
    (by decide) (by decide)

/-! ### Spacer pixels -/

/-- C8 fails as stated: with a blue background and one spacer pixel between
two gauges, `show` writes the spacer pixel (strand index 1) black, not blue. -/
theorem show_spacer_not_background :
    NeoGaugeDisplay.showDisplay blueBackground noJunk
        = some [DriverCall.setPixelColor 0 0xFF0000, DriverCall.setPixelColor 1 0,
            DriverCall.setPixelColor 2 0xFF4000, DriverCall.show] ∧
      blueBackground._space = 1 ∧
      gaugeOffset blueBackground 0 + (gaugeAt blueBackground 0).size = 1 ∧
      shownColor blueBackground._background = 0x0000FF := by
  decide

/-- C8, amended. On a well-formed display with a nonzero range, `show` makes
for each gauge in registry order the `size` calls of its pixels, followed,
for every gauge except the last, by exactly `space` calls that write black
(`Color(0, 0, 0)`, whatever the background) at the next strand indices, and
ends with the driver's `show()`; so no spacer pixel precedes the first gauge
or follows the last. -/
theorem show_spacers_black (d : NeoGaugeDisplay) (junk : Nat → Nat → Nat) (hwf : d.WF)
    (hrange : 1 ≤ d._range) :
    NeoGaugeDisplay.showDisplay d junk
        = some ((List.range d._numberOfGauges).flatMap (fun i =>
              gaugeCalls (junk i) d._background (gaugeAt d i) (readingAt d i) (gaugeOffset d i)
                ++ (if i + 1 < d._numberOfGauges then
                      (List.range d._space).map fun s =>
                        DriverCall.setPixelColor (gaugeOffset d i + (gaugeAt d i).size + s)
                          (driverColor 0 0 0)
                    else []))
            ++ [DriverCall.show]) ∧
      (∀ i, (gaugeCalls (junk i) d._background (gaugeAt d i) (readingAt d i)
          (gaugeOffset d i)).length = (gaugeAt d i).size) ∧
      (∀ i s, i + 1 < d._numberOfGauges → s < d._space →
        ∃ calls, NeoGaugeDisplay.showDisplay d junk = some calls ∧
          calls[gaugeOffset d i + (gaugeAt d i).size + s]? =
            some (DriverCall.setPixelColor (gaugeOffset d i + (gaugeAt d i).size + s) 0)) := by
  refine ⟨?_, fun i => gaugeCalls_length _ _ _ _ _, fun i s hi hs =>
    showDisplay_spacer d junk hwf hrange i s hi hs⟩
  rw [showDisplay_eq d junk hwf hrange]
  rfl

/-- Witness of the amended C8 on the display with a blue background. -/
theorem show_spacers_black_witness :
    blueBackground.WF ∧ 1 ≤ blueBackground._range ∧
      ∃ calls, NeoGaugeDisplay.showDisplay blueBackground noJunk = some calls ∧
        calls[gaugeOffset blueBackground 0 + (gaugeAt blueBackground 0).size + 0]? =
          some (DriverCall.setPixelColor
            (gaugeOffset blueBackground 0 + (gaugeAt blueBackground 0).size + 0) 0) :=
  ⟨by decide, by decide,
    (show_spacers_black blueBackground noJunk (by decide) (by decide)).2.2 0 0
      (by decide) (by decide)⟩

/-! ## Registry: stores that leave the rest of the state alone -/

/-- C11. On a registry holding `n < 16` gauges, `addGauge(size, startColor,
endColor, reverse)` returns `n`, raises the gauge count to `n + 1`, stores at
index `n` exactly the gauge `{0, size, startColor, endColor, reverse}` and
leaves every other slot, in particular the gauges at indices `0 .. n-1`,
unchanged. -/
theorem addGaugeRGB_frame (self : NeoGaugeDisplay) (size startRGBcode endRGBcode : Nat)
    (reverse : Bool) (hlen : self._gauges.length = 16) (hn : self._numberOfGauges < 16) :
    ∃ self1,
      self.addGaugeRGB size startRGBcode endRGBcode reverse
        = some (self._numberOfGauges, self1) ∧
      self1._numberOfGauges = self._numberOfGauges + 1 ∧
      self1._gauges[self._numberOfGauges]?
        = some ⟨0, size, startRGBcode, endRGBcode, reverse⟩ ∧
      (∀ j, j ≠ self._numberOfGauges → self1._gauges[j]? = self._gauges[j]?) ∧
      self1._gauges.length = 16 := by
  refine ⟨{ self with
      _gauges := self._gauges.set self._numberOfGauges
        ⟨0, size, startRGBcode, endRGBcode, reverse⟩
      _numberOfGauges := (self._numberOfGauges + 1) % 256 }, ?_, ?_, ?_, ?_, ?_⟩
  · simp only [NeoGaugeDisplay.addGaugeRGB, if_pos hn]
  · show (self._numberOfGauges + 1) % 256 = self._numberOfGauges + 1
    omega
  · show (self._gauges.set self._numberOfGauges _)[self._numberOfGauges]? = _
    rw [List.getElem?_set_self (by omega)]
  · intro j hj
    show (self._gauges.set self._numberOfGauges _)[j]? = _
    rw [List.getElem?_set_ne (Ne.symm hj)]
  · show (self._gauges.set self._numberOfGauges _).length = 16
    rw [List.length_set, hlen]

/-- Witness of C11: a third gauge added to a registry of two. -/
theorem addGaugeRGB_frame_witness :
    ∃ self1,
      pairDisplay.addGaugeRGB 7 0x112233 0x445566 true = some (2, self1) ∧
      self1._numberOfGauges = 3 ∧
      self1._gauges[2]? = some ⟨0, 7, 0x112233, 0x445566, true⟩ ∧
      (∀ j, j ≠ 2 → self1._gauges[j]? = pairDisplay._gauges[j]?) ∧
      self1._gauges.length = 16 :=
  addGaugeRGB_frame pairDisplay 7 0x112233 0x445566 true (by decide) (by decide)

/-- C13. For an index below the gauge count and a 16-bit value,
`setGaugeValue(index, value)` stores the value in that gauge and changes
nothing else: the gauge keeps its size, colours and orientation, every other
slot of the registry is unchanged, and so are the gauge count, background,
brightness, range, spacing and pin. -/
theorem setGaugeValue_frame (self : NeoGaugeDisplay) (gid : Nat) (value : Int)
    (hlen : self._gauges.length = 16) (hcount : self._numberOfGauges ≤ 16)
    (hgid : gid < self._numberOfGauges) (hlo : -32768 ≤ value) (hhi : value ≤ 32767) :
    ∃ self1 g,
      self._gauges[gid]? = some g ∧
      self.setGaugeValue gid value = some self1 ∧
      self1._gauges[gid]? = some ⟨value, g.size, g.startColor, g.endColor, g.reverse⟩ ∧
      (∀ j, j ≠ gid → self1._gauges[j]? = self._gauges[j]?) ∧
      self1._gauges.length = self._gauges.length ∧
      self1._numberOfGauges = self._numberOfGauges ∧
      self1._background = self._background ∧
      self1._brightness = self._brightness ∧
      self1._range = self._range ∧
      self1._space = self._space ∧
      self1._pin = self._pin := by
  have hlt : gid < self._gauges.length := by omega
  have hget : self._gauges[gid]? = some self._gauges[gid] := List.getElem?_eq_getElem hlt
  refine ⟨{ self with
      _gauges := self._gauges.set gid { self._gauges[gid] with value := toInt16 value } },
    self._gauges[gid], hget, ?_, ?_, ?_, ?_, rfl, rfl, rfl, rfl, rfl, rfl⟩
  · have h16 : gid < 16 := by omega
    simp only [NeoGaugeDisplay.setGaugeValue, hget, if_pos h16]
  · show (self._gauges.set gid _)[gid]? = _
    rw [List.getElem?_set_self hlt, toInt16_of_range value hlo hhi]
  · intro j hj
    show (self._gauges.set gid _)[j]? = _
    rw [List.getElem?_set_ne (Ne.symm hj)]
  · show (self._gauges.set gid _).length = _
    rw [List.length_set]

/-- Witness of C13: a negative value stored in the second of two gauges. -/
theorem setGaugeValue_frame_witness :
    ∃ self1 g,
      pairDisplay._gauges[1]? = some g ∧
      pairDisplay.setGaugeValue 1 (-7) = some self1 ∧
      self1._gauges[1]? = some ⟨-7, g.size, g.startColor, g.endColor, g.reverse⟩ ∧
      (∀ j, j ≠ 1 → self1._gauges[j]? = pairDisplay._gauges[j]?) ∧
      self1._gauges.length = pairDisplay._gauges.length ∧
      self1._numberOfGauges = pairDisplay._numberOfGauges ∧
      self1._background = pairDisplay._background ∧
      self1._brightness = pairDisplay._brightness ∧
      self1._range = pairDisplay._range ∧
      self1._space = pairDisplay._space ∧
      self1._pin = pairDisplay._pin :=
  setGaugeValue_frame pairDisplay 1 (-7) (by decide) (by decide) (by decide) (by decide)
    (by decide)

/-! ## Pixel colour: solid gauges -/

/-- C12. For a gauge with `startColor == endColor`, `getPixelColor` returns
that colour at every step (in particular at every step below the size),
whatever the orientation and the size. -/
theorem getPixelColor_solid (alpha : Nat) (g : Gauge) (step : Nat)
    (heq : g.startColor = g.endColor) :
    NeoGaugeDisplay.getPixelColor alpha g step = some g.startColor := by
  unfold NeoGaugeDisplay.getPixelColor
  simp only [heq, ite_self, if_true]

/-- Witness of C12: step 3 of a solid reversed gauge of 6 pixels. -/
theorem getPixelColor_solid_witness :
    solidGauge.startColor = solidGauge.endColor ∧
      NeoGaugeDisplay.getPixelColor 9 solidGauge 3 = some 0xFF4000 :=
  ⟨by decide, getPixelColor_solid 9 solidGauge 3 (by decide)⟩

/-! ## Pixel colour: the gradient as a whole -/

theorem store_up_toNat (s e n step : Nat) (hs : s < 256) (he : e < 256) (hn : 0 < n)
    (hstep : step ≤ n) :
    toUInt8 ((s : Int) + step * toInt16 (Int.tdiv ((e : Int) - s) n))
      = ((s : Int) + step * Int.tdiv ((e : Int) - s) n).toNat := by
  have h := channel_store_up s e n step hs he hn hstep
  omega

theorem store_down_toNat (s e n step : Nat) (hs : s < 256) (he : e < 256) (hn : n < 256)
    (hstep : step + 1 ≤ n) :
    toUInt8 ((e : Int) - (toUInt8 ((n : Int) - 1 - step) : Nat)
        * toInt16 (Int.tdiv ((e : Int) - s) n))
      = ((e : Int) - ((n : Int) - 1 - step) * Int.tdiv ((e : Int) - s) n).toNat := by
  have h := channel_store_down s e n step hs he hn hstep
  omega

/-- On the steps of a gauge, `getPixelColor` is defined and agrees with the
closed form. -/
theorem getPixelColor_closed (alpha : Nat) (g : Gauge) (step : Nat) (hsize : g.size < 256)
    (hstep : step < g.size) :
    NeoGaugeDisplay.getPixelColor alpha g step = some (closedColor alpha g step) := by
  have hsz : g.size ≠ 0 := by omega
  have hpos : 0 < g.size := by omega
  unfold NeoGaugeDisplay.getPixelColor closedColor
  by_cases h0 : step = 0
  · simp only [if_pos h0, effectiveStart]
  · have hlast : ((step : Int) = (g.size : Int) - 1) ↔ step + 1 = g.size := by omega
    by_cases h1 : step + 1 = g.size
    · simp only [if_neg h0, if_pos h1, if_pos (hlast.2 h1), effectiveEnd]
    · simp only [if_neg h0, if_neg h1, if_neg (fun h => h1 (hlast.1 h))]
      by_cases heq : effectiveStart g = effectiveEnd g
      · have heq2 := heq
        unfold effectiveStart effectiveEnd at heq2
        simp only [if_pos heq, if_pos heq2]
        rfl
      · have heq2 := heq
        unfold effectiveStart effectiveEnd at heq2
        simp only [if_neg heq, if_neg heq2, if_neg hsz]
        unfold channelRamp effectiveStart effectiveEnd
        by_cases hhalf : step < g.size / 2
        · simp only [if_pos hhalf]
          rw [store_up_toNat _ _ _ _ (Red_lt _) (Red_lt _) hpos (by omega),
            store_up_toNat _ _ _ _ (Green_lt _) (Green_lt _) hpos (by omega),
            store_up_toNat _ _ _ _ (Blue_lt _) (Blue_lt _) hpos (by omega)]
        · simp only [if_neg hhalf]
          rw [store_down_toNat _ _ _ _ (Red_lt _) (Red_lt _) hsize (by omega),
            store_down_toNat _ _ _ _ (Green_lt _) (Green_lt _) hsize (by omega),
            store_down_toNat _ _ _ _ (Blue_lt _) (Blue_lt _) hsize (by omega)]

theorem ramp_zero (s e n : Nat) (hn : 2 ≤ n) : channelRamp s e n 0 = s := by
  have h : 0 < n / 2 := by omega
  unfold channelRamp
  rw [if_pos h]
  simp

theorem ramp_last (s e n step : Nat) (hn : 2 ≤ n) (hstep : step + 1 = n) :
    channelRamp s e n step = e := by
  have h : ¬ step < n / 2 := by omega
  have h0 : (n : Int) - 1 - step = 0 := by omega
  unfold channelRamp
  rw [if_neg h, h0]
  simp

theorem ramp_same (s n step : Nat) : channelRamp s s n step = s := by
  unfold channelRamp
  split_ifs <;> simp

/-- Every value of the ramp lies between the two channel values. -/
theorem ramp_between (s e n step : Nat) (hn : 0 < n) (hstep : step < n) :
    min (s : Int) e ≤ channelRamp s e n step ∧ channelRamp s e n step ≤ max (s : Int) e := by
  have hm2 : ((n : Int) - 1 - step) = ((n - 1 - step : Nat) : Int) := by omega
  unfold channelRamp
  rw [hm2]
  rcases Int.le_total 0 ((e : Int) - s) with h | h
  · have h1 := tdiv_mul_bounds_nonneg _ n step hn (by omega) h
    have h2 := tdiv_mul_bounds_nonneg _ n (n - 1 - step) hn (by omega) h
    split_ifs <;> omega
  · have h1 := tdiv_mul_bounds_nonpos _ n step hn (by omega) h
    have h2 := tdiv_mul_bounds_nonpos _ n (n - 1 - step) hn (by omega) h
    split_ifs <;> omega

theorem ramp_toNat (s e n step : Nat) (hs : s < 256) (he : e < 256) (hn : 0 < n)
    (hstep : step < n) :
    (channelRamp s e n step).toNat < 256 ∧
      ((channelRamp s e n step).toNat : Int) = channelRamp s e n step := by
  have h := ramp_between s e n step hn hstep
  omega

/-- The three channels of the closed form follow the ramp at every step of a
gauge of at least 2 pixels, the two ends included. -/
theorem closed_channels (alpha : Nat) (g : Gauge) (step : Nat) (hsize : 2 ≤ g.size)
    (hstep : step < g.size) :
    (Red (closedColor alpha g step) : Int)
        = channelRamp (Red (effectiveStart g)) (Red (effectiveEnd g)) g.size step ∧
      (Green (closedColor alpha g step) : Int)
        = channelRamp (Green (effectiveStart g)) (Green (effectiveEnd g)) g.size step ∧
      (Blue (closedColor alpha g step) : Int)
        = channelRamp (Blue (effectiveStart g)) (Blue (effectiveEnd g)) g.size step := by
  have hpos : 0 < g.size := by omega
  unfold closedColor
  split_ifs with h0 h1 heq
  · subst h0
    simp only [ramp_zero _ _ _ hsize, and_self]
  · simp only [ramp_last _ _ _ _ hsize h1, and_self]
  · rw [← heq]
    simp only [ramp_same, and_self]
  · have hr := ramp_toNat (Red (effectiveStart g)) (Red (effectiveEnd g)) g.size step
      (Red_lt _) (Red_lt _) hpos hstep
    have hg := ramp_toNat (Green (effectiveStart g)) (Green (effectiveEnd g)) g.size step
      (Green_lt _) (Green_lt _) hpos hstep
    have hb := ramp_toNat (Blue (effectiveStart g)) (Blue (effectiveEnd g)) g.size step
      (Blue_lt _) (Blue_lt _) hpos hstep
    rw [Red_colorValue _ _ _ _ hr.1, Green_colorValue _ _ _ _ hg.1,
      Blue_colorValue _ _ _ _ hb.1]
    exact ⟨hr.2, hg.2, hb.2⟩

/-- The ramp does not decrease along the steps when the end channel is not
below the start channel, the midpoint seam included. -/
theorem ramp_mono_up (s e n k1 k2 : Nat) (hn : 0 < n) (hse : s ≤ e) (h12 : k1 ≤ k2) :
    channelRamp s e n k1 ≤ channelRamp s e n k2 := by
  have hd : (0 : Int) ≤ (e : Int) - s := by omega
  have hq : 0 ≤ Int.tdiv ((e : Int) - s) n := Int.tdiv_nonneg hd (by omega)
  have hnq := (tdiv_mul_bounds_nonneg _ n n hn (Nat.le_refl n) hd).2
  have hstep := Int.mul_nonneg (show (0 : Int) ≤ (k2 : Int) - k1 by omega) hq
  unfold channelRamp
  split_ifs with ha hb hb
  · linarith
  · have hx := Int.mul_nonneg (show (0 : Int) ≤ (k2 : Int) - k1 + 1 by omega) hq
    linarith
  · omega
  · linarith

/-- The ramp does not increase along the steps when the end channel is not
above the start channel, the midpoint seam included. -/
theorem ramp_mono_down (s e n k1 k2 : Nat) (hn : 0 < n) (hes : e ≤ s) (h12 : k1 ≤ k2) :
    channelRamp s e n k2 ≤ channelRamp s e n k1 := by
  have hd : (e : Int) - s ≤ 0 := by omega
  have hq : Int.tdiv ((e : Int) - s) n ≤ 0 := by
    have := tdiv_mul_bounds_nonpos _ n 1 hn hn hd
    omega
  have hnq := (tdiv_mul_bounds_nonpos _ n n hn (Nat.le_refl n) hd).1
  have hstep := Int.mul_nonneg (show (0 : Int) ≤ (k2 : Int) - k1 by omega)
    (show (0 : Int) ≤ -Int.tdiv ((e : Int) - s) n by omega)
  unfold channelRamp
  split_ifs with ha hb hb
  · linarith
  · omega
  · have hx := Int.mul_nonneg (show (0 : Int) ≤ (k2 : Int) - k1 + 1 by omega)
      (show (0 : Int) ≤ -Int.tdiv ((e : Int) - s) n by omega)
    linarith
  · linarith

/-- Swapping the channel values and mirroring the step leaves the ramp
unchanged, except at the middle step of an odd size. -/
theorem ramp_mirror (a b n step : Nat) (hstep : step < n) (hmid : 2 * step + 1 ≠ n) :
    channelRamp b a n step = channelRamp a b n (n - 1 - step) := by
  have hneg : Int.tdiv ((a : Int) - b) n = -Int.tdiv ((b : Int) - a) n := by
    have h : (a : Int) - b = -((b : Int) - a) := by omega
    rw [h, Int.neg_tdiv]
  have hcast : ((n - 1 - step : Nat) : Int) = (n : Int) - 1 - step := by omega
  unfold channelRamp
  rw [hneg, hcast]
  split_ifs with h1 h2 h2
  · omega
  · ring
  · ring
  · omega

/-- C14 fails as stated: the middle pixel of a 3-pixel black-to-blue gauge is
0x000055 when the gauge is reversed and 0x0000AA when it is not, although
`size - 1 - step = step = 1`. -/
theorem reversed_gradient_middle_differs :
    NeoGaugeDisplay.getPixelColor 0 blueRampReversed 1 = some 0x000055 ∧
      NeoGaugeDisplay.getPixelColor 0 blueRampForward (3 - 1 - 1) = some 0x0000AA ∧
      blueRampReversed = ⟨0, 3, 0x000000, 0x0000FF, true⟩ ∧
      blueRampForward = ⟨0, 3, 0x000000, 0x0000FF, false⟩ := by
  decide

/-- C14, amended. For every size from 2 to 255, all colours `a` and `b` and
every step below the size other than the middle step of an odd size
(`2 * step + 1 = size`), the colour `getPixelColor` gives the reversed gauge
`{size, a, b, reverse = true}` at `step` and the colour it gives the
non-reversed gauge `{size, a, b, reverse = false}` at `size - 1 - step` have
the same red, green and blue channels, and are the same 32-bit value when the
two calls leave the same indeterminate `Alpha` byte. -/
theorem reversed_gradient_mirror (alpha1 alpha2 : Nat) (value1 value2 : Int)
    (size a b step : Nat) (h2 : 2 ≤ size) (h256 : size < 256) (hstep : step < size)
    (hmid : 2 * step + 1 ≠ size) :
    ∃ cr cf,
      NeoGaugeDisplay.getPixelColor alpha1 ⟨value1, size, a, b, true⟩ step = some cr ∧
      NeoGaugeDisplay.getPixelColor alpha2 ⟨value2, size, a, b, false⟩ (size - 1 - step)
        = some cf ∧
      Red cr = Red cf ∧ Green cr = Green cf ∧ Blue cr = Blue cf ∧
      (alpha1 = alpha2 → cr = cf) := by
  have hm : size - 1 - step < size := by omega
  have hr := closed_channels alpha1 ⟨value1, size, a, b, true⟩ step h2 hstep
  have hf := closed_channels alpha2 ⟨value2, size, a, b, false⟩ (size - 1 - step) h2 hm
  have esr : effectiveStart ⟨value1, size, a, b, true⟩ = b := rfl
  have eer : effectiveEnd ⟨value1, size, a, b, true⟩ = a := rfl
  have esf : effectiveStart ⟨value2, size, a, b, false⟩ = a := rfl
  have eef : effectiveEnd ⟨value2, size, a, b, false⟩ = b := rfl
  rw [esr, eer] at hr
  rw [esf, eef] at hf
  simp only [] at hr hf
  rw [ramp_mirror _ _ _ _ hstep hmid, ← hf.1, ramp_mirror _ _ _ _ hstep hmid, ← hf.2.1,
    ramp_mirror _ _ _ _ hstep hmid, ← hf.2.2] at hr
  refine ⟨_, _, getPixelColor_closed alpha1 _ step h256 hstep,
    getPixelColor_closed alpha2 _ (size - 1 - step) h256 hm,
    by exact_mod_cast hr.1, by exact_mod_cast hr.2.1, by exact_mod_cast hr.2.2, ?_⟩
  intro halpha
  subst halpha
  unfold closedColor
  rw [esr, eer, esf, eef]
  simp only []
  by_cases h0 : step = 0
  · have hm0 : ¬ (size - 1 - step = 0) := by omega
    have hm1 : size - 1 - step + 1 = size := by omega
    rw [if_pos h0, if_neg hm0, if_pos hm1]
  · by_cases h1 : step + 1 = size
    · have hm0 : size - 1 - step = 0 := by omega
      rw [if_neg h0, if_pos h1, if_pos hm0]
    · have hm0 : ¬ (size - 1 - step = 0) := by omega
      have hm1 : ¬ (size - 1 - step + 1 = size) := by omega
      rw [if_neg h0, if_neg h1, if_neg hm0, if_neg hm1]
      by_cases hab : b = a
      · rw [if_pos hab, if_pos hab.symm, hab]
      · rw [if_neg hab, if_neg (fun h => hab h.symm), ramp_mirror _ _ _ _ hstep hmid,
          ramp_mirror _ _ _ _ hstep hmid, ramp_mirror _ _ _ _ hstep hmid]

/-- Witness of the amended C14: step 5 of an 8-pixel red-to-green gauge. -/
theorem reversed_gradient_mirror_witness :
    ∃ cr cf,
      NeoGaugeDisplay.getPixelColor 7 ⟨500, 8, 0xFF0000, 0x00FF30, true⟩ 5 = some cr ∧
      NeoGaugeDisplay.getPixelColor 7 ⟨500, 8, 0xFF0000, 0x00FF30, false⟩ (8 - 1 - 5)
        = some cf ∧
      Red cr = Red cf ∧ Green cr = Green cf ∧ Blue cr = Blue cf ∧
      (7 = 7 → cr = cf) :=
  reversed_gradient_mirror 7 7 500 500 8 0xFF0000 0x00FF30 5 (by decide) (by decide)
    (by decide) (by decide)

/-- C16. For a gauge of at least 1 pixel and every step below its size, each
of the red, green and blue channels of the colour returned by `getPixelColor`
lies between the corresponding channels of `startColor` and `endColor`,
inclusive; from 2 pixels on each channel is the exact integer of the ramp, so
no 8-bit store of the interpolation wraps. -/
theorem getPixelColor_between (alpha : Nat) (g : Gauge) (step : Nat) (hsize : g.size < 256)
    (hstep : step < g.size) :
    ∃ c, NeoGaugeDisplay.getPixelColor alpha g step = some c ∧
      min (Red g.startColor) (Red g.endColor) ≤ Red c ∧
      Red c ≤ max (Red g.startColor) (Red g.endColor) ∧
      min (Green g.startColor) (Green g.endColor) ≤ Green c ∧
      Green c ≤ max (Green g.startColor) (Green g.endColor) ∧
      min (Blue g.startColor) (Blue g.endColor) ≤ Blue c ∧
      Blue c ≤ max (Blue g.startColor) (Blue g.endColor) ∧
      (2 ≤ g.size →
        (Red c : Int)
          = channelRamp (Red (effectiveStart g)) (Red (effectiveEnd g)) g.size step ∧
        (Green c : Int)
          = channelRamp (Green (effectiveStart g)) (Green (effectiveEnd g)) g.size step ∧
        (Blue c : Int)
          = channelRamp (Blue (effectiveStart g)) (Blue (effectiveEnd g)) g.size step) := by
  refine ⟨_, getPixelColor_closed alpha g step hsize hstep, ?_⟩
  rw [← and_assoc, ← and_assoc, ← and_assoc, ← and_assoc, ← and_assoc]
  refine ⟨?_, fun h2 => closed_channels alpha g step h2 hstep⟩
  simp only [and_assoc]
  by_cases h2 : 2 ≤ g.size
  · have hc := closed_channels alpha g step h2 hstep
    have hr := ramp_between (Red (effectiveStart g)) (Red (effectiveEnd g)) g.size step
      (by omega) hstep
    have hg := ramp_between (Green (effectiveStart g)) (Green (effectiveEnd g)) g.size step
      (by omega) hstep
    have hb := ramp_between (Blue (effectiveStart g)) (Blue (effectiveEnd g)) g.size step
      (by omega) hstep
    rw [← hc.1] at hr
    rw [← hc.2.1] at hg
    rw [← hc.2.2] at hb
    unfold effectiveStart effectiveEnd at hr hg hb
    cases hrev : g.reverse <;> simp only [hrev, if_true, Bool.false_eq_true, if_false] at hr hg hb
      <;> omega
  · have h0 : step = 0 := by omega
    unfold closedColor effectiveStart
    rw [if_pos h0]
    cases hrev : g.reverse <;> simp only [if_true, Bool.false_eq_true, if_false] <;> omega

/-- Witness of C16: step 5 of the reversed 8-pixel gauge. -/
theorem getPixelColor_between_witness :
    ∃ c, NeoGaugeDisplay.getPixelColor 7 reversedGauge 5 = some c ∧
      min (Red reversedGauge.startColor) (Red reversedGauge.endColor) ≤ Red c ∧
      Red c ≤ max (Red reversedGauge.startColor) (Red reversedGauge.endColor) ∧
      min (Green reversedGauge.startColor) (Green reversedGauge.endColor) ≤ Green c ∧
      Green c ≤ max (Green reversedGauge.startColor) (Green reversedGauge.endColor) ∧
      min (Blue reversedGauge.startColor) (Blue reversedGauge.endColor) ≤ Blue c ∧
      Blue c ≤ max (Blue reversedGauge.startColor) (Blue reversedGauge.endColor) ∧
      (2 ≤ reversedGauge.size →
        (Red c : Int) = channelRamp (Red (effectiveStart reversedGauge))
          (Red (effectiveEnd reversedGauge)) reversedGauge.size 5 ∧
        (Green c : Int) = channelRamp (Green (effectiveStart reversedGauge))
          (Green (effectiveEnd reversedGauge)) reversedGauge.size 5 ∧
        (Blue c : Int) = channelRamp (Blue (effectiveStart reversedGauge))
          (Blue (effectiveEnd reversedGauge)) reversedGauge.size 5) :=
  getPixelColor_between 7 reversedGauge 5 (by decide) (by decide)

/-- C17. For a gauge of at least 1 pixel and two steps `p1 <= p2` below its
size, each of the red, green and blue channels returned by `getPixelColor`
does not decrease from `p1` to `p2` when the effective end channel is not
below the effective start channel, and does not increase when it is not above
it; the steps may lie on either side of the midpoint seam. -/
theorem getPixelColor_monotone (alpha1 alpha2 : Nat) (g : Gauge) (p1 p2 : Nat)
    (hsize : g.size < 256) (h12 : p1 ≤ p2) (hp2 : p2 < g.size) :
    ∃ c1 c2,
      NeoGaugeDisplay.getPixelColor alpha1 g p1 = some c1 ∧
      NeoGaugeDisplay.getPixelColor alpha2 g p2 = some c2 ∧
      (Red (effectiveStart g) ≤ Red (effectiveEnd g) → Red c1 ≤ Red c2) ∧
      (Red (effectiveEnd g) ≤ Red (effectiveStart g) → Red c2 ≤ Red c1) ∧
      (Green (effectiveStart g) ≤ Green (effectiveEnd g) → Green c1 ≤ Green c2) ∧
      (Green (effectiveEnd g) ≤ Green (effectiveStart g) → Green c2 ≤ Green c1) ∧
      (Blue (effectiveStart g) ≤ Blue (effectiveEnd g) → Blue c1 ≤ Blue c2) ∧
      (Blue (effectiveEnd g) ≤ Blue (effectiveStart g) → Blue c2 ≤ Blue c1) := by
  have hp1 : p1 < g.size := by omega
  refine ⟨_, _, getPixelColor_closed alpha1 g p1 hsize hp1,
    getPixelColor_closed alpha2 g p2 hsize hp2, ?_⟩
  by_cases h2 : 2 ≤ g.size
  · have hpos : 0 < g.size := by omega
    have hc1 := closed_channels alpha1 g p1 h2 hp1
    have hc2 := closed_channels alpha2 g p2 h2 hp2
    refine ⟨fun h => ?_, fun h => ?_, fun h => ?_, fun h => ?_, fun h => ?_, fun h => ?_⟩
    · have := ramp_mono_up _ _ g.size p1 p2 hpos h h12
      rw [← hc1.1, ← hc2.1] at this
      exact_mod_cast this
    · have := ramp_mono_down _ _ g.size p1 p2 hpos h h12
      rw [← hc1.1, ← hc2.1] at this
      exact_mod_cast this
    · have := ramp_mono_up _ _ g.size p1 p2 hpos h h12
      rw [← hc1.2.1, ← hc2.2.1] at this
      exact_mod_cast this
    · have := ramp_mono_down _ _ g.size p1 p2 hpos h h12
      rw [← hc1.2.1, ← hc2.2.1] at this
      exact_mod_cast this
    · have := ramp_mono_up _ _ g.size p1 p2 hpos h h12
      rw [← hc1.2.2, ← hc2.2.2] at this
      exact_mod_cast this
    · have := ramp_mono_down _ _ g.size p1 p2 hpos h h12
      rw [← hc1.2.2, ← hc2.2.2] at this
      exact_mod_cast this
  · have h1 : p1 = 0 := by omega
    have h02 : p2 = 0 := by omega
    subst h1
    subst h02
    unfold closedColor
    simp only [if_true]
    exact ⟨fun _ => Nat.le_refl _, fun _ => Nat.le_refl _, fun _ => Nat.le_refl _,
      fun _ => Nat.le_refl _, fun _ => Nat.le_refl _, fun _ => Nat.le_refl _⟩

/-- Witness of C17: steps 3 and 4 of the reversed 8-pixel gauge, on the two
sides of the midpoint seam. -/
theorem getPixelColor_monotone_witness :
    ∃ c1 c2,
      NeoGaugeDisplay.getPixelColor 7 reversedGauge 3 = some c1 ∧
      NeoGaugeDisplay.getPixelColor 9 reversedGauge 4 = some c2 ∧
      (Red (effectiveStart reversedGauge) ≤ Red (effectiveEnd reversedGauge) → Red c1 ≤ Red c2) ∧
      (Red (effectiveEnd reversedGauge) ≤ Red (effectiveStart reversedGauge) → Red c2 ≤ Red c1) ∧
      (Green (effectiveStart reversedGauge) ≤ Green (effectiveEnd reversedGauge) →
        Green c1 ≤ Green c2) ∧
      (Green (effectiveEnd reversedGauge) ≤ Green (effectiveStart reversedGauge) →
        Green c2 ≤ Green c1) ∧
      (Blue (effectiveStart reversedGauge) ≤ Blue (effectiveEnd reversedGauge) →
        Blue c1 ≤ Blue c2) ∧
      (Blue (effectiveEnd reversedGauge) ≤ Blue (effectiveStart reversedGauge) →
        Blue c2 ≤ Blue c1) :=
  getPixelColor_monotone 7 9 reversedGauge 3 4 (by decide) (by decide) (by decide)

/-! ## Rendering: the strand as a whole -/

theorem sizeSum_le (d : NeoGaugeDisplay) (hsz : ∀ g ∈ d._gauges, g.size < 256) :
    ∀ i, i ≤ d._gauges.length → sizeSum d i ≤ 255 * i := by
  intro i
  induction i with
  | zero => intro _; simp [sizeSum]
  | succ i ih =>
    intro hi
    have h := hsz _ (gaugeAt_mem d i (by omega))
    rw [sizeSum_succ d i (by omega)]
    have := ih (by omega)
    omega

/-- Value of `totalNumberOfPixels()` on a well-formed registry that is not
empty. -/
theorem total_pixels_value (d : NeoGaugeDisplay) (hwf : d.WF) (hn : 1 ≤ d._numberOfGauges) :
    d.totalNumberOfPixels
      = some (sizeSum d d._numberOfGauges + d._space * (d._numberOfGauges - 1)) := by
  obtain ⟨_, hcount, hspace, _, _, hlen, _, hg⟩ := hwf
  have hsz : ∀ g ∈ d._gauges, g.size < 256 := fun g hgm => (hg g hgm).2.2.1
  have hsum := sizeSum_le d hsz d._numberOfGauges (by omega)
  have hsp : d._space * (d._numberOfGauges - 1) ≤ 255 * 15 :=
    Nat.mul_le_mul (by omega) (by omega)
  have hcast : ((sizeSum d d._numberOfGauges : Nat) : Int)
        + ((d._numberOfGauges : Int) - 1) * (d._space : Int)
      = ((sizeSum d d._numberOfGauges + d._space * (d._numberOfGauges - 1) : Nat) : Int) := by
    push_cast [Nat.cast_sub hn]
    ring
  unfold NeoGaugeDisplay.totalNumberOfPixels
  rw [totalLoop_eq d._gauges hsz d._numberOfGauges 0 0 (by omega) (by omega)]
  simp only [List.drop_zero, Nat.zero_add]
  show some (toUInt16 (((sizeSum d d._numberOfGauges : Nat) : Int)
    + ((d._numberOfGauges : Int) - 1) * (d._space : Int))) = _
  rw [hcast, toUInt16_of_lt _ (by omega)]

theorem indexed_append (base : Nat) (l1 l2 : List DriverCall) (h1 : IndexedFrom base l1)
    (h2 : IndexedFrom (base + l1.length) l2) : IndexedFrom base (l1 ++ l2) := by
  intro j hj
  by_cases hlt : j < l1.length
  · rw [List.getElem?_append_left hlt]
    exact h1 j hlt
  · rw [List.length_append] at hj
    rw [List.getElem?_append_right (by omega)]
    obtain ⟨c, hc⟩ := h2 (j - l1.length) (by omega)
    refine ⟨c, ?_⟩
    rw [hc]
    have hidx : base + l1.length + (j - l1.length) = base + j := by omega
    rw [hidx]

theorem indexed_gaugeCalls (junk : Nat → Nat) (background : Nat) (g : Gauge) (reading : Int)
    (base : Nat) : IndexedFrom base (gaugeCalls junk background g reading base) := by
  intro j hj
  rw [gaugeCalls_length] at hj
  unfold gaugeCalls
  rw [List.getElem?_map, List.getElem?_range hj]
  exact ⟨_, rfl⟩

theorem indexed_spaceCalls (space base : Nat) : IndexedFrom base (spaceCalls space base) := by
  intro j hj
  rw [spaceCalls_length] at hj
  unfold spaceCalls
  rw [List.getElem?_map, List.getElem?_range hj]
  exact ⟨_, rfl⟩

theorem indexed_segment (d : NeoGaugeDisplay) (junk : Nat → Nat → Nat) (i : Nat) :
    IndexedFrom (gaugeOffset d i) (segmentCalls d junk i) := by
  unfold segmentCalls
  apply indexed_append
  · exact indexed_gaugeCalls _ _ _ _ _
  · rw [gaugeCalls_length]
    split_ifs
    · exact indexed_spaceCalls _ _
    · intro j hj
      simp at hj

/-- The calls of the first `i` segments are pixel writes at the strand indices
`0, 1, ...` in order. -/
theorem segments_indexed (d : NeoGaugeDisplay) (junk : Nat → Nat → Nat)
    (hcount : d._numberOfGauges ≤ d._gauges.length) :
    ∀ i, i ≤ d._numberOfGauges →
      IndexedFrom 0 ((List.range i).flatMap (segmentCalls d junk)) := by
  intro i
  induction i with
  | zero =>
    intro _ j hj
    simp at hj
  | succ i ih =>
    intro hi
    rw [List.range_succ, List.flatMap_append]
    apply indexed_append
    · exact ih (by omega)
    · rw [segments_length d junk hcount i (by omega), Nat.zero_add]
      simp only [List.flatMap_cons, List.flatMap_nil, List.append_nil]
      exact indexed_segment d junk i

/-- Number of pixel writes of `show` on a registry that is not empty. -/
theorem segments_total (d : NeoGaugeDisplay) (junk : Nat → Nat → Nat)
    (hcount : d._numberOfGauges ≤ d._gauges.length) (hn : 1 ≤ d._numberOfGauges) :
    ((List.range d._numberOfGauges).flatMap (segmentCalls d junk)).length
      = sizeSum d d._numberOfGauges + d._space * (d._numberOfGauges - 1) := by
  obtain ⟨m, hm⟩ : ∃ m, d._numberOfGauges = m + 1 := ⟨d._numberOfGauges - 1, by omega⟩
  have hlast : ¬ (m + 1 < d._numberOfGauges) := by omega
  rw [hm, List.range_succ, List.flatMap_append, List.length_append,
    segments_length d junk hcount m (by omega), sizeSum_succ d m (by omega)]
  simp only [List.flatMap_cons, List.flatMap_nil, List.append_nil]
  unfold segmentCalls
  rw [if_neg hlast, List.append_nil, gaugeCalls_length]
  unfold gaugeOffset
  rw [Nat.add_sub_cancel, Nat.mul_comm d._space m]
  omega

/-- C15. On a well-formed registry holding between 1 and 16 gauges, with a
nonzero range, `show` makes exactly `totalNumberOfPixels()` pixel writes
before the driver's `show()`; the write at position `x` has strand index `x`,
so the indices `0, 1, ..., totalNumberOfPixels() - 1` are each written once,
in increasing order; and pixel `p` of gauge `i` is the write at index
`(sum of the sizes of gauges 0..i-1) + i * space + p`. -/
theorem show_layout (d : NeoGaugeDisplay) (junk : Nat → Nat → Nat) (hwf : d.WF)
    (hrange : 1 ≤ d._range) (hn : 1 ≤ d._numberOfGauges) :
    ∃ writes total,
      NeoGaugeDisplay.showDisplay d junk = some (writes ++ [DriverCall.show]) ∧
      d.totalNumberOfPixels = some total ∧
      writes.length = total ∧
      (∀ x, x < total → ∃ c, writes[x]? = some (DriverCall.setPixelColor x c)) ∧
      (∀ i p, i < d._numberOfGauges → p < (gaugeAt d i).size →
        sizeSum d i + i * d._space + p < total ∧
        writes[sizeSum d i + i * d._space + p]? =
          some (DriverCall.setPixelColor (sizeSum d i + i * d._space + p)
            (shownColor (NeoGaugeDisplay.pixelColor (gaugeAt d i) (readingAt d i) p
              (baseColor (junk i p) (gaugeAt d i) p) d._background)))) := by
  have hcount : d._numberOfGauges ≤ d._gauges.length := by
    have := hwf.2.1; have := hwf.2.2.2.2.2.1; omega
  have hlen := segments_total d junk hcount hn
  have hidx := segments_indexed d junk hcount d._numberOfGauges (Nat.le_refl _)
  refine ⟨(List.range d._numberOfGauges).flatMap (segmentCalls d junk), _,
    showDisplay_eq d junk hwf hrange, total_pixels_value d hwf hn, hlen, ?_, ?_⟩
  · intro x hx
    obtain ⟨c, hc⟩ := hidx x (by rw [hlen]; exact hx)
    rw [Nat.zero_add] at hc
    exact ⟨c, hc⟩
  · intro i p hi hp
    obtain ⟨calls, hshow, hcall⟩ := showDisplay_pixel d junk hwf hrange i p hi hp
    rw [showDisplay_eq d junk hwf hrange] at hshow
    have hcalls := Option.some.inj hshow
    rw [← hcalls] at hcall
    unfold gaugeOffset at hcall
    have hlt : sizeSum d i + i * d._space + p
        < ((List.range d._numberOfGauges).flatMap (segmentCalls d junk)).length := by
      by_contra hge
      rw [List.getElem?_append_right (by omega)] at hcall
      by_cases heq : sizeSum d i + i * d._space + p
          - ((List.range d._numberOfGauges).flatMap (segmentCalls d junk)).length = 0
      · rw [heq] at hcall
        simp at hcall
      · rw [List.getElem?_eq_none (by rw [List.length_singleton]; omega)] at hcall
        cases hcall
    rw [List.getElem?_append_left hlt] at hcall
    exact ⟨by rw [← hlen]; exact hlt, hcall⟩

/-- Witness of C15: the three gauges of sizes 5, 3 and 8 with 2 spacer pixels. -/
theorem show_layout_witness :
    ∃ writes total,
      NeoGaugeDisplay.showDisplay threeGauges noJunk = some (writes ++ [DriverCall.show]) ∧
      threeGauges.totalNumberOfPixels = some total ∧
      writes.length = total ∧
      (∀ x, x < total → ∃ c, writes[x]? = some (DriverCall.setPixelColor x c)) ∧
      (∀ i p, i < threeGauges._numberOfGauges → p < (gaugeAt threeGauges i).size →
        sizeSum threeGauges i + i * threeGauges._space + p < total ∧
        writes[sizeSum threeGauges i + i * threeGauges._space + p]? =
          some (DriverCall.setPixelColor (sizeSum threeGauges i + i * threeGauges._space + p)
            (shownColor (NeoGaugeDisplay.pixelColor (gaugeAt threeGauges i)
              (readingAt threeGauges i) p
              (baseColor (noJunk i p) (gaugeAt threeGauges i) p) threeGauges._background)))) :=
  show_layout threeGauges noJunk (by decide) (by decide) (by decide)

/-! ## Rendering: no division by zero -/

theorem getPixelColor_none_iff (alpha : Nat) (g : Gauge) (step : Nat) :
    NeoGaugeDisplay.getPixelColor alpha g step = none ↔
      divisionReached g step ∧ g.size = 0 := by
  unfold NeoGaugeDisplay.getPixelColor divisionReached effectiveStart effectiveEnd
  by_cases h0 : step = 0
  · simp [h0]
  · by_cases h1 : (step : Int) = (g.size : Int) - 1
    · simp [h0, h1]
    · by_cases heq : (if g.reverse then g.endColor else g.startColor)
          = (if g.reverse then g.startColor else g.endColor)
      · simp [h0, h1, heq]
      · by_cases hsz : g.size = 0
        · simp [h0, h1, heq, hsz]
        · simp only [if_neg h0, if_neg h1, if_neg heq, if_neg hsz]
          split_ifs <;> simp [hsz]

/-- C18. On a well-formed registry (at most 16 gauges, sizes 0..255 with size
0 allowed, any colours) with a nonzero range, `show` runs to completion
without dividing by zero: every call it makes to `getPixelColor` has
`step < size` and is defined, the divisions by `gauge.size` are reached only
in a gauge of at least 3 pixels, `getPixelColor` is undefined only where it
divides by a size of 0, and a gauge of size 0 causes no call and no pixel
write. -/
theorem show_no_division_by_zero (d : NeoGaugeDisplay) (junk : Nat → Nat → Nat) (hwf : d.WF)
    (hrange : 1 ≤ d._range) :
    (∃ calls, NeoGaugeDisplay.showDisplay d junk = some calls) ∧
      (∀ i, i < d._numberOfGauges → ∀ step ∈ getPixelColorSteps (gaugeAt d i),
        step < (gaugeAt d i).size ∧
        (divisionReached (gaugeAt d i) step → 3 ≤ (gaugeAt d i).size) ∧
        ∀ alpha, NeoGaugeDisplay.getPixelColor alpha (gaugeAt d i) step ≠ none) ∧
      (∀ alpha g step, NeoGaugeDisplay.getPixelColor alpha g step = none ↔
        divisionReached g step ∧ g.size = 0) ∧
      (∀ i, i < d._numberOfGauges → (gaugeAt d i).size = 0 →
        getPixelColorSteps (gaugeAt d i) = [] ∧
        gaugeCalls (junk i) d._background (gaugeAt d i) (readingAt d i) (gaugeOffset d i)
          = []) := by
  have hcount : d._numberOfGauges ≤ d._gauges.length := by
    have := hwf.2.1; have := hwf.2.2.2.2.2.1; omega
  refine ⟨⟨_, showDisplay_eq d junk hwf hrange⟩, ?_, getPixelColor_none_iff, ?_⟩
  · intro i hi step hmem
    have hsize : (gaugeAt d i).size < 256 :=
      (hwf.2.2.2.2.2.2.2 _ (gaugeAt_mem d i (by omega))).2.2.1
    obtain ⟨pixel, hpixel, rfl⟩ := List.mem_map.1 hmem
    have hlt : pixel < (gaugeAt d i).size := List.mem_range.1 hpixel
    have hmod : pixel % 256 = pixel := Nat.mod_eq_of_lt (by omega)
    rw [hmod]
    refine ⟨hlt, ?_, ?_⟩
    · intro hdiv
      obtain ⟨hne0, hne1, _⟩ := hdiv
      omega
    · intro alpha hnone
      have := ((getPixelColor_none_iff alpha _ _).1 hnone).2
      omega
  · intro i _ hzero
    simp [getPixelColorSteps, gaugeCalls, hzero]

/-- Witness of C18: a display whose first gauge has size 0 and two different
colours. -/
theorem show_no_division_by_zero_witness :
    withEmptyGauge.WF ∧ (gaugeAt withEmptyGauge 0).size = 0 ∧
      (∃ calls, NeoGaugeDisplay.showDisplay withEmptyGauge noJunk = some calls) ∧
      getPixelColorSteps (gaugeAt withEmptyGauge 0) = [] :=
  ⟨by decide, by decide,
    (show_no_division_by_zero withEmptyGauge noJunk (by decide) (by decide)).1,
    ((show_no_division_by_zero withEmptyGauge noJunk (by decide) (by decide)).2.2.2 0
      (by decide) (by decide)).1⟩

end NeoGauge
